import Mathlib

/-!
Espresso header types: wire codec, commitments and test setup.

A shallow embedding of `op-service/espresso/types.go`,
`op-node/espresso/types.go` and the genesis allocation part of
`op-e2e/e2eutils/setup.go`.

Go library calls used by the source (`encoding/json`, `fmt.Sscanf`,
`math/big`) are embedded by their behaviour on the values the source hands
them.  JSON is embedded at the level of JSON values: an encoder returns the
value its output bytes denote, a decoder receives the value its input bytes
denote.  Input bytes that are not a JSON text are outside the embedding:
`json.Unmarshal` refuses them with a `SyntaxError` before anything is stored.
-/

namespace Espresso

/-! ## Go values -/

/-- One Go `byte`: an unsigned value in `0..255`. -/
abbrev Byte := Fin 256

/-- Go slice value: the nil slice, or a sequence of elements. -/
inductive Slice (α : Type) where
  | nil : Slice α
  | mk (elems : List α) : Slice α
  deriving DecidableEq, Repr

/-- Elements of a slice in order; the nil slice has none. -/
def Slice.toList {α : Type} : Slice α → List α
  | .nil => []
  | .mk xs => xs

/-- Go `len(s)`. -/
def Slice.len {α : Type} (s : Slice α) : Nat := s.toList.length

/-- Go `make([]T, n)`: a non-nil slice of `n` zero values. -/
def Slice.make {α : Type} (zero : α) (n : Nat) : Slice α := .mk (List.replicate n zero)

/-- Errors returned by the codec. -/
inductive Error where
  /-- Go `*json.UnmarshalTypeError`: JSON value `value` cannot be stored in Go type `goType`. -/
  | unmarshalType (value : String) (goType : String)
  /-- Go `fmt.Errorf("byte out of range: %d", v)` of `Bytes.UnmarshalJSON`. -/
  | byteOutOfRange (v : Int)
  /-- Error of `fmt.Sscanf`. -/
  | scan (msg : String)
  /-- Error of `(*big.Int).UnmarshalJSON`. -/
  | bigInt (msg : String)
  deriving DecidableEq, Repr

/-! ## JSON values -/

/-- JSON value.  A number literal without fraction and exponent is `num neg mag`
(optional minus sign, decimal magnitude); any other number literal is `real`
with its text. Object members keep document order. -/
inductive Json where
  | null : Json
  | bool (b : Bool) : Json
  | num (neg : Bool) (mag : Nat) : Json
  | real (lit : String) : Json
  | str (s : String) : Json
  | arr (items : List Json) : Json
  | obj (members : List (String × Json)) : Json

/-- Integer denoted by the literal `num neg mag`. -/
def litValue (neg : Bool) (mag : Nat) : Int := if neg then -(mag : Int) else (mag : Int)

/-- JSON number literal that `encoding/json` writes for a Go integer. -/
def Json.ofInt (x : Int) : Json := .num (decide (x < 0)) x.natAbs

/-- Name `encoding/json` uses for a JSON value in an `UnmarshalTypeError`. -/
def Json.kind : Json → String
  | .null => "null"
  | .bool _ => "bool"
  | .num _ _ => "number"
  | .real _ => "number"
  | .str _ => "string"
  | .arr _ => "array"
  | .obj _ => "object"

/-- Decoding of one JSON value into an existing Go `int` (64 bits) `cur`:
an integer literal inside the `int64` range is stored, `null` leaves `cur`, anything
else is an `UnmarshalTypeError`. -/
def unmarshalInt (cur : Int) : Json → Except Error Int
  | .num neg mag =>
    if -(2 : Int) ^ 63 ≤ litValue neg mag ∧ litValue neg mag < (2 : Int) ^ 63 then
      .ok (litValue neg mag)
    else .error (.unmarshalType "number" "int")
  | .null => .ok cur
  | j => .error (.unmarshalType j.kind "int")

/-- Decoding of array elements into fresh `int` slots (zero before the store). -/
def unmarshalIntElems : List Json → Except Error (List Int)
  | [] => .ok []
  | j :: rest =>
    match unmarshalInt 0 j with
    | .error e => .error e
    | .ok v =>
      match unmarshalIntElems rest with
      | .error e => .error e
      | .ok vs => .ok (v :: vs)

/-- Go `json.Unmarshal(in, &ints)` for a fresh `var ints []int`: `null` leaves the
nil slice, an array is decoded element by element, any other value is an
`UnmarshalTypeError`. -/
def jsonUnmarshalInts : Json → Except Error (Slice Int)
  | .null => .ok .nil
  | .arr items =>
    match unmarshalIntElems items with
    | .error e => .error e
    | .ok vs => .ok (.mk vs)
  | j => .error (.unmarshalType j.kind "[]int")

/-- Go `json.Marshal(ints)` for `ints []int`: `null` for the nil slice, else the
array of the decimal literals. -/
def jsonMarshalInts : Slice Int → Except Error Json
  | .nil => .ok .null
  | .mk xs => .ok (.arr (xs.map Json.ofInt))

/-! ## `Bytes` -/

/-- Source type `Bytes []byte`. -/
abbrev Bytes := Slice Byte

/-- Go conversion `byte(x)` of an `int`: the low eight bits. -/
def byteOfInt (x : Int) : Byte := Fin.ofNat (x % 256).toNat

/-- Loop of `Bytes.MarshalJSON`: `for i := range b { ints[i] = int(b[i]) }`, from index `i`. -/
def Bytes.marshalLoop : List Byte → Nat → List Int → List Int
  | [], _, ints => ints
  | x :: rest, i, ints => Bytes.marshalLoop rest (i + 1) (ints.set i (x.val : Int))

/-- Source `func (b Bytes) MarshalJSON() ([]byte, error)`. -/
def Bytes.MarshalJSON (b : Bytes) : Except Error Json :=
  let ints : Slice Int := Slice.make 0 b.len
  jsonMarshalInts (.mk (Bytes.marshalLoop b.toList 0 ints.toList))

/-- Loop of `Bytes.UnmarshalJSON` from index `i` over the remaining `ints`, writing
into `buf`; returns the buffer and the error, if any. -/
def Bytes.unmarshalLoop : List Int → Nat → List Byte → List Byte × Option Error
  | [], _, buf => (buf, none)
  | x :: rest, i, buf =>
    if x < 0 ∨ 255 < x then (buf, some (.byteOutOfRange x))
    else Bytes.unmarshalLoop rest (i + 1) (buf.set i (byteOfInt x))

/-- Source `func (b *Bytes) UnmarshalJSON(in []byte) error`: returns the receiver
after the call and the error (`none` for Go `nil`). -/
def Bytes.UnmarshalJSON (b : Bytes) (inp : Json) : Bytes × Option Error :=
  match jsonUnmarshalInts inp with
  | .error e => (b, some e)
  | .ok ints =>
    let b1 : Bytes := Slice.make 0 ints.len
    let r := Bytes.unmarshalLoop ints.toList 0 b1.toList
    (.mk r.1, r.2)

/-! ## `math/big.Int`, `fmt.Sprintf` and `fmt.Sscanf` -/

/-- Go `big.Int`: sign flag and magnitude (`neg` and `abs` of the Go struct). -/
structure BigInt where
  neg : Bool
  abs : Nat
  deriving DecidableEq, Repr

/-- Integer held by a `big.Int`. -/
def BigInt.toInt (z : BigInt) : Int := if z.neg then -(z.abs : Int) else (z.abs : Int)

/-- Normalised `big.Int` holding `x` (zero has no sign). -/
def BigInt.ofInt (x : Int) : BigInt := ⟨decide (x < 0), x.natAbs⟩

/-- Lowercase character of the hex digit value `d`. -/
def hexChar (d : Nat) : Char :=
  ['0', '1', '2', '3', '4', '5', '6', '7', '8', '9', 'a', 'b', 'c', 'd', 'e', 'f'].getD d '?'

/-- Digits of `n` in base 16, most significant first, in front of `acc`; `fuel` bounds
the number of digits. -/
def hexDigitsAux : Nat → Nat → List Char → List Char
  | 0, _, acc => acc
  | fuel + 1, n, acc =>
    if n < 16 then hexChar n :: acc
    else hexDigitsAux fuel (n / 16) (hexChar (n % 16) :: acc)

/-- Hex digits of a magnitude, as `nat.itoa` writes them for a non-zero value. -/
def hexDigits (n : Nat) : List Char := hexDigitsAux (n + 1) n []

/-- Hex digit values of `n` by the library notion `Nat.digits`: most significant first,
`[0]` for zero.  Used to state what `hexDigits` writes. -/
def hexValues (n : Nat) : List Nat := if n = 0 then [0] else (Nat.digits 16 n).reverse

/-- Go `(*big.Int).Text(16)`: "0" for a zero magnitude, else an optional minus sign
and the lowercase hex digits. -/
def BigInt.Text16 (x : BigInt) : String :=
  if x.abs = 0 then "0"
  else (if x.neg then "-" else "") ++ String.mk (hexDigits x.abs)

/-- Go `json.Marshal(s)` for a string `s`. -/
def jsonMarshalString (s : String) : Except Error Json := .ok (.str s)

/-- Go `json.Unmarshal(in, &s)` for a string variable holding `cur`: a JSON string is
stored, `null` leaves `cur`, anything else is an `UnmarshalTypeError`. -/
def jsonUnmarshalString (cur : String) : Json → Except Error String
  | .str s => .ok s
  | .null => .ok cur
  | j => .error (.unmarshalType j.kind "string")

/-- Space characters of package `fmt` (its `isSpace`). -/
def isSpace (r : Char) : Bool :=
  let c := r.toNat
  decide ((0x09 ≤ c ∧ c ≤ 0x0d) ∨ c = 0x20 ∨ c = 0x85 ∨ c = 0xa0 ∨ c = 0x1680 ∨
    (0x2000 ≤ c ∧ c ≤ 0x200a) ∨ (0x2028 ≤ c ∧ c ≤ 0x2029) ∨ c = 0x202f ∨ c = 0x205f ∨
    c = 0x3000)

/-- Go `(*ss).SkipSpace` of `fmt` in `Sscanf` mode (a newline is not a space): the
input left after the skipped spaces, or the "unexpected newline" error. -/
def skipSpace : List Char → Except Error (List Char)
  | [] => .ok []
  | r :: rest =>
    if r = '\r' ∧ rest.head? = some '\n' then skipSpace rest
    else if r = '\n' then .error (.scan "unexpected newline")
    else if !isSpace r then .ok (r :: rest)
    else skipSpace rest

/-- Go `scanSign` of `math/big` on the scanner input: reads one byte, which may be a
sign; a rune wider than one byte is an error of the byte reader. -/
def scanSign : List Char → Except Error (Bool × List Char)
  | [] => .error (.scan "unexpected EOF")
  | c :: rest =>
    if 128 ≤ c.toNat then .error (.scan "invalid rune")
    else if c = '-' then .ok (true, rest)
    else if c = '+' then .ok (false, rest)
    else .ok (false, c :: rest)

/-- Digit value `d1` that `nat.scan` gives a byte (63 is `MaxBase + 1`: not a digit). -/
def digitVal (ch : Char) : Nat :=
  if '0' ≤ ch ∧ ch ≤ '9' then ch.toNat - 48
  else if 'a' ≤ ch ∧ ch ≤ 'z' then ch.toNat - 97 + 10
  else if 'A' ≤ ch ∧ ch ≤ 'Z' then ch.toNat - 65 + 10
  else 63

/-- Digit loop of `nat.scan` in base `b1`: value read so far, digit count, and the
error of the byte reader if it stopped on one (end of input and a non-digit byte
both end the number without error). -/
def scanDigits (b1 : Nat) : List Char → Nat → Nat → Nat × Nat × Option Error
  | [], acc, count => (acc, count, none)
  | c :: rest, acc, count =>
    if 128 ≤ c.toNat then (acc, count, some (.scan "invalid rune"))
    else if b1 ≤ digitVal c then (acc, count, none)
    else scanDigits b1 rest (acc * b1 + digitVal c) (count + 1)

/-- Go `nat.scan(r, 16, false)`: the magnitude and the error; no digit at all is
the error `errNoDigits`. -/
def natScan16 (input : List Char) : Nat × Option Error :=
  let r := scanDigits 16 input 0 0
  if r.2.1 = 0 then (r.1, some (.scan "number has no digits")) else (r.1, r.2.2)

/-- Go `(*big.Int).scan(r, 16)`: sign, then magnitude.  The magnitude is assigned to
the receiver also when the digit scan fails; the sign only on success. -/
def BigInt.scan16 (z : BigInt) (input : List Char) : BigInt × Option Error :=
  match scanSign input with
  | .error e => (z, some e)
  | .ok (neg, rest) =>
    match natScan16 rest with
    | (v, some e) => ({ z with abs := v }, some e)
    | (v, none) => (⟨decide (0 < v) && neg, v⟩, none)

/-- Go `(*big.Int).Scan(s, 'x')`: skips leading space, then scans in base 16. -/
def BigInt.Scan (z : BigInt) (input : List Char) : BigInt × Option Error :=
  match skipSpace input with
  | .error e => (z, some e)
  | .ok rest => BigInt.scan16 z rest

/-- One literal rune `fmtc` of a `Sscanf` format matched against the input (a step of
`(*ss).advance`): the input must go on with that rune. -/
def matchRune (fmtc : Char) : List Char → Except Error (List Char)
  | [] => .error (.scan "unexpected EOF")
  | c :: rest =>
    if fmtc ≠ c then .error (.scan "input does not match format") else .ok rest

/-- Go `fmt.Sscanf(s, "0x%x", &z)` for `z *big.Int`: the literal runes `0` and `x` must
match the input, space before the operand is skipped, the operand is scanned by
`(*big.Int).Scan`; input left after the operand is not looked at.  (The scanner's
internal limit of 2^30 runes per call is not modelled.) -/
def Sscanf0xHex (s : String) (z : BigInt) : BigInt × Option Error :=
  match matchRune '0' s.toList with
  | .error e => (z, some e)
  | .ok t0 =>
    match matchRune 'x' t0 with
    | .error e => (z, some e)
    | .ok t1 =>
      match skipSpace t1 with
      | .error e => (z, some e)
      | .ok t2 => BigInt.Scan z t2

/-! ## `U256` -/

/-- Source type `U256 struct { big.Int }`. -/
structure U256 extends BigInt
  deriving DecidableEq, Repr

/-- Source `func (i U256) MarshalJSON() ([]byte, error)`. -/
def U256.MarshalJSON (i : U256) : Except Error Json :=
  jsonMarshalString ("0x" ++ i.toBigInt.Text16)

/-- Source `func (i *U256) UnmarshalJSON(in []byte) error`: returns the receiver
after the call and the error (`none` for Go `nil`). -/
def U256.UnmarshalJSON (i : U256) (inp : Json) : U256 × Option Error :=
  match jsonUnmarshalString "" inp with
  | .error e => (i, some e)
  | .ok s =>
    let r := Sscanf0xHex s i.toBigInt
    (⟨r.1⟩, r.2)

/-- Source `func (i *U256) SetUint64(n uint64) *U256`. -/
def U256.SetUint64 (_i : U256) (n : Fin (2 ^ 64)) : U256 := ⟨⟨false, n.val⟩⟩

/-- Source `func NewU256() *U256`: the zero value. -/
def NewU256 : U256 := ⟨⟨false, 0⟩⟩

/-! ## Commitment builder -/

/-- Go `uint64` value. -/
abbrev Uint64 := Fin (2 ^ 64)

/-- Modelled from the spec: one field appended to a commitment builder (the builder of
the package, `RawCommitmentBuilder`, is not among the sources).  The spec's builder
appends, per call and in call order, the field name and an encoding of the value; the
fields are kept here with what was appended, over any commitment type `C`:
`field_uint64` (the fixed-width encoding, kept as the number the 8 bytes spell),
`field_uint256` (the fixed-width 32-byte encoding, kept as the number below `2^256`
the 32 bytes spell), `field_commitment` and `field_varsize` (a byte sequence). -/
inductive BuilderField (C : Type) where
  | uint64 (name : String) (value : Uint64) : BuilderField C
  | uint256 (name : String) (value : Fin (2 ^ 256)) : BuilderField C
  | commitment (name : String) (sub : C) : BuilderField C
  | varSize (name : String) (bytes : List Byte) : BuilderField C
  deriving DecidableEq, Repr

/-- Name under which a field was appended. -/
def BuilderField.name {C : Type} : BuilderField C → String
  | .uint64 n _ => n
  | .uint256 n _ => n
  | .commitment n _ => n
  | .varSize n _ => n

/-- Modelled from the spec: the commitment builder (not among the sources): a domain
tag and the fields appended so far, in call order. -/
structure RawCommitmentBuilder (C : Type) where
  tag : String
  fields : List (BuilderField C)
  deriving DecidableEq, Repr

/-- Modelled from the spec: `new(tag)` (source name `NewRawCommitmentBuilder`) begins an
accumulation under the domain tag. -/
def NewRawCommitmentBuilder {C : Type} (tag : String) : RawCommitmentBuilder C := ⟨tag, []⟩

/-- Modelled from the spec: `field_uint64(name, value)` (source name `Uint64Field`). -/
def RawCommitmentBuilder.Uint64Field {C : Type} (b : RawCommitmentBuilder C) (f : String)
    (n : Uint64) : RawCommitmentBuilder C :=
  { b with fields := b.fields ++ [.uint64 f n] }

/-- Modelled from the spec: the 32-byte encoding that `field_uint256` appends.  A value
`v` with `0 ≤ v < 2^256` is encoded as itself (big-endian, zero-padded).  For a value
that does not fit, the spec leaves the implementer the choice to fail or to truncate
by a fixed rule: `overflow v` is that choice, `none` for failure, `some w` for the
truncated encoding.  A negative value, which the spec's wide integers exclude and the
codec admits, is left to the same choice. -/
def encodeUint256 (overflow : Int → Option (Fin (2 ^ 256))) (v : Int) :
    Option (Fin (2 ^ 256)) :=
  if h : 0 ≤ v ∧ v < 2 ^ 256 then some ⟨v.toNat, by omega⟩ else overflow v

/-- Modelled from the spec: the choice "fails" for a value wider than 256 bits. -/
def overflowFails : Int → Option (Fin (2 ^ 256)) := fun _ => none

/-- Modelled from the spec: a choice "truncates deterministically" for a value wider than
256 bits: the low 256 bits are kept. -/
def overflowTruncates : Int → Option (Fin (2 ^ 256)) :=
  fun v => some ⟨(v % 2 ^ 256).toNat, by omega⟩

/-- Modelled from the spec: `field_uint256(name, value)` (source name `Uint256Field`):
appends the 32-byte encoding of the value, or fails (`none`) when the encoding does. -/
def RawCommitmentBuilder.Uint256Field {C : Type}
    (overflow : Int → Option (Fin (2 ^ 256))) (b : RawCommitmentBuilder C) (f : String)
    (n : U256) : Option (RawCommitmentBuilder C) :=
  (encodeUint256 overflow n.toBigInt.toInt).map
    (fun w => { b with fields := b.fields ++ [.uint256 f w] })

/-- Modelled from the spec: `field_commitment(name, sub)` (source name `Field`). -/
def RawCommitmentBuilder.Field {C : Type} (b : RawCommitmentBuilder C) (f : String)
    (c : C) : RawCommitmentBuilder C :=
  { b with fields := b.fields ++ [.commitment f c] }

/-- Modelled from the spec: `field_varsize(name, bytes)` (source name `VarSizeField`). -/
def RawCommitmentBuilder.VarSizeField {C : Type} (b : RawCommitmentBuilder C) (f : String)
    (bytes : Bytes) : RawCommitmentBuilder C :=
  { b with fields := b.fields ++ [.varSize f bytes.toList] }

/-! ## Header types of `op-service/espresso` -/

/-- Source `type L1BlockInfo struct` (op-service). -/
structure L1BlockInfo where
  Number : Uint64
  Timestamp : U256
  deriving DecidableEq, Repr

/-- Source `type NmtRoot struct` (op-service). -/
structure NmtRoot where
  Root : Bytes
  deriving DecidableEq, Repr

/-- Source `type Header struct` (op-service), fields in declaration order. -/
structure Header where
  Timestamp : Uint64
  L1Block : L1BlockInfo
  TransactionsRoot : NmtRoot
  deriving DecidableEq, Repr

/-- Source `func (self *L1BlockInfo) Commit() Commitment`; `Finalize` is the builder's
finalisation (a hash in the package, not among the sources) and `overflow` the
builder's choice for a timestamp that does not fit 256 bits.  The result is `none` when
the builder fails: the Go method then does not return. -/
def L1BlockInfo.Commit {C : Type} (overflow : Int → Option (Fin (2 ^ 256)))
    (Finalize : RawCommitmentBuilder C → C) (self : L1BlockInfo) : Option C :=
  (((NewRawCommitmentBuilder "L1BLOCK").Uint64Field "number" self.Number).Uint256Field
    overflow "timestamp" self.Timestamp).map Finalize

/-- Source `func (self *NmtRoot) Commit() Commitment`. -/
def NmtRoot.Commit {C : Type} (Finalize : RawCommitmentBuilder C → C) (self : NmtRoot) : C :=
  Finalize ((NewRawCommitmentBuilder "NMTROOT").VarSizeField "root" self.Root)

/-- Source `func (self *Header) Commit() Commitment`; `none` when `self.L1Block.Commit()`
does not return. -/
def Header.Commit {C : Type} (overflow : Int → Option (Fin (2 ^ 256)))
    (Finalize : RawCommitmentBuilder C → C) (self : Header) : Option C :=
  (self.L1Block.Commit overflow Finalize).map (fun l1 =>
    Finalize
      ((((NewRawCommitmentBuilder "BLOCK").Uint64Field "timestamp" self.Timestamp).Field
        "l1_block" l1).Field
        "transactions_root" (self.TransactionsRoot.Commit Finalize)))

/-! ## `encoding/json` on structs -/

/-- Case folding of one rune of an object key, as far as it can meet an ASCII field
name: ASCII letters fold to upper case, and so do the two non-ASCII runes whose
simple fold is an ASCII letter (U+017F to `S`, U+212A to `K`). -/
def foldRune (c : Char) : Char :=
  if 'a' ≤ c ∧ c ≤ 'z' then Char.ofNat (c.toNat - 32)
  else if c = Char.ofNat 0x17F then 'S'
  else if c = Char.ofNat 0x212A then 'K'
  else c

/-- Whether an object key selects the struct field with JSON name `name`:
`encoding/json` takes the exact name, else a case-insensitive match. -/
def keyMatches (key name : String) : Bool :=
  key.toList.map foldRune == name.toList.map foldRune

/-- Decoding of the members of a JSON object into a struct, in document order, each
member by `step`.  The first error ends the decoding (Go goes on after a type error
and returns it at the end: whether an error is returned is the same). -/
def decodeMembers {σ : Type} (step : σ → String → Json → Except Error σ) :
    List (String × Json) → σ → Except Error σ
  | [], st => .ok st
  | (k, v) :: rest, st =>
    match step st k v with
    | .error e => .error e
    | .ok st1 => decodeMembers step rest st1

/-- Decoding of one JSON value into an existing Go `uint64` `cur`: a literal without
sign below `2^64` is stored, `null` leaves `cur`, anything else is an
`UnmarshalTypeError`. -/
def unmarshalUint64 (cur : Uint64) : Json → Except Error Uint64
  | .num neg mag =>
    if h : neg = false ∧ mag < 2 ^ 64 then .ok ⟨mag, h.2⟩
    else .error (.unmarshalType "number" "uint64")
  | .null => .ok cur
  | j => .error (.unmarshalType j.kind "uint64")

/-- Go `json.Marshal` of an op-service `L1BlockInfo`: an object with the tagged fields
in declaration order; `Timestamp` is written by `U256.MarshalJSON`. -/
def L1BlockInfo.jsonMarshal (x : L1BlockInfo) : Except Error Json :=
  match x.Timestamp.MarshalJSON with
  | .error e => .error e
  | .ok ts => .ok (.obj [("number", .num false x.Number.val), ("timestamp", ts)])

/-- Go `json.Marshal` of an op-service `NmtRoot`; `Root` is written by `Bytes.MarshalJSON`. -/
def NmtRoot.jsonMarshal (x : NmtRoot) : Except Error Json :=
  match x.Root.MarshalJSON with
  | .error e => .error e
  | .ok r => .ok (.obj [("root", r)])

/-- Go `json.Marshal` of an op-service `Header`. -/
def Header.jsonMarshal (h : Header) : Except Error Json :=
  match h.L1Block.jsonMarshal with
  | .error e => .error e
  | .ok l1 =>
    match h.TransactionsRoot.jsonMarshal with
    | .error e => .error e
    | .ok root =>
      .ok (.obj [("timestamp", .num false h.Timestamp.val), ("l1_block", l1),
        ("transactions_root", root)])

/-- One object member decoded into an op-service `L1BlockInfo`; `Timestamp` is read by
`U256.UnmarshalJSON`, an unknown key is skipped. -/
def L1BlockInfo.decodeField (x : L1BlockInfo) (key : String) (v : Json) :
    Except Error L1BlockInfo :=
  if keyMatches key "number" then
    match unmarshalUint64 x.Number v with
    | .error e => .error e
    | .ok n => .ok { x with Number := n }
  else if keyMatches key "timestamp" then
    match x.Timestamp.UnmarshalJSON v with
    | (_, some e) => .error e
    | (t, none) => .ok { x with Timestamp := t }
  else .ok x

/-- Go `json.Unmarshal` into an op-service `L1BlockInfo` holding `x`. -/
def L1BlockInfo.jsonUnmarshal (x : L1BlockInfo) : Json → Except Error L1BlockInfo
  | .obj members => decodeMembers L1BlockInfo.decodeField members x
  | .null => .ok x
  | j => .error (.unmarshalType j.kind "espresso.L1BlockInfo")

/-- One object member decoded into an op-service `NmtRoot`; `Root` is read by
`Bytes.UnmarshalJSON`. -/
def NmtRoot.decodeField (x : NmtRoot) (key : String) (v : Json) : Except Error NmtRoot :=
  if keyMatches key "root" then
    match x.Root.UnmarshalJSON v with
    | (_, some e) => .error e
    | (r, none) => .ok { x with Root := r }
  else .ok x

/-- Go `json.Unmarshal` into an op-service `NmtRoot` holding `x`. -/
def NmtRoot.jsonUnmarshal (x : NmtRoot) : Json → Except Error NmtRoot
  | .obj members => decodeMembers NmtRoot.decodeField members x
  | .null => .ok x
  | j => .error (.unmarshalType j.kind "espresso.NmtRoot")

/-- One object member decoded into an op-service `Header`. -/
def Header.decodeField (h : Header) (key : String) (v : Json) : Except Error Header :=
  if keyMatches key "timestamp" then
    match unmarshalUint64 h.Timestamp v with
    | .error e => .error e
    | .ok n => .ok { h with Timestamp := n }
  else if keyMatches key "l1_block" then
    match h.L1Block.jsonUnmarshal v with
    | .error e => .error e
    | .ok l1 => .ok { h with L1Block := l1 }
  else if keyMatches key "transactions_root" then
    match h.TransactionsRoot.jsonUnmarshal v with
    | .error e => .error e
    | .ok r => .ok { h with TransactionsRoot := r }
  else .ok h

/-- Go `json.Unmarshal` into an op-service `Header` holding `h`. -/
def Header.jsonUnmarshal (h : Header) : Json → Except Error Header
  | .obj members => decodeMembers Header.decodeField members h
  | .null => .ok h
  | j => .error (.unmarshalType j.kind "espresso.Header")

/-! ## Header types of `op-node/espresso` -/

/-- Source `type L1BlockInfo struct` (op-node): `Timestamp` is a plain `big.Int`. -/
structure Node.L1BlockInfo where
  Number : Uint64
  Timestamp : BigInt
  deriving DecidableEq, Repr

/-- Source `type Header struct` (op-node), fields in declaration order;
`NmtRoot = []byte`. -/
structure Node.Header where
  L1Block : Node.L1BlockInfo
  Timestamp : Uint64
  TransactionsRoot : Slice Byte
  deriving DecidableEq, Repr

/-- Go `(*big.Int).MarshalJSON`: the decimal literal of the value. -/
def BigInt.MarshalJSON (x : BigInt) : Except Error Json :=
  .ok (.num (decide (0 < x.abs) && x.neg) x.abs)

/-- Go `(*big.Int).UnmarshalJSON` on the text of a JSON value: `null` is ignored, an
integer literal is stored, any other text (a quoted string, a literal with fraction
or exponent, an array, an object, a boolean) does not scan as an integer. -/
def BigInt.UnmarshalJSON (z : BigInt) : Json → Except Error BigInt
  | .null => .ok z
  | .num neg mag => .ok ⟨decide (0 < mag) && neg, mag⟩
  | _ => .error (.bigInt "math/big: cannot unmarshal into a *big.Int")

/-- Go `json.Marshal` of a `big.Int` struct field: through `(*big.Int).MarshalJSON`
when the struct is addressable (it was passed by pointer), else as a struct without
exported fields, the empty object. -/
def BigInt.jsonMarshalField (addressable : Bool) (x : BigInt) : Except Error Json :=
  if addressable then x.MarshalJSON else .ok (.obj [])

/-- Go `json.Marshal` of a `[]byte`: `null` for the nil slice, else the base64 text
`b64` of the bytes as a JSON string. -/
def jsonMarshalByteSlice (b64 : List Byte → String) : Slice Byte → Except Error Json
  | .nil => .ok .null
  | .mk bs => .ok (.str (b64 bs))

/-- Decoding of one JSON value into a `uint8` element holding `cur`. -/
def unmarshalUint8 (cur : Byte) : Json → Except Error Byte
  | .num neg mag =>
    if h : neg = false ∧ mag < 256 then .ok ⟨mag, h.2⟩
    else .error (.unmarshalType "number" "uint8")
  | .null => .ok cur
  | j => .error (.unmarshalType j.kind "uint8")

/-- Decoding of array elements into the elements of a `[]byte` that held `cur`: the
element at an index is decoded over the old element there (zero past the old length;
spare capacity is taken as zeroed). -/
def unmarshalUint8Elems : List Byte → List Json → Except Error (List Byte)
  | _, [] => .ok []
  | cur, j :: rest =>
    match unmarshalUint8 (cur.headD 0) j with
    | .error e => .error e
    | .ok v =>
      match unmarshalUint8Elems cur.tail rest with
      | .error e => .error e
      | .ok vs => .ok (v :: vs)

/-- Go `json.Unmarshal` into a `[]byte` holding `cur`: `null` gives the nil slice, a
string is read as base64 by `unb64`, an array element by element, anything else is an
`UnmarshalTypeError`. -/
def jsonUnmarshalByteSlice (unb64 : String → Option (List Byte)) (cur : Slice Byte) :
    Json → Except Error (Slice Byte)
  | .null => .ok .nil
  | .str s =>
    match unb64 s with
    | some bs => .ok (.mk bs)
    | none => .error (.unmarshalType "string" "[]uint8")
  | .arr items =>
    match unmarshalUint8Elems cur.toList items with
    | .error e => .error e
    | .ok vs => .ok (.mk vs)
  | j => .error (.unmarshalType j.kind "[]uint8")

/-- Go `json.Marshal` of an op-node `L1BlockInfo`. -/
def Node.L1BlockInfo.jsonMarshal (addressable : Bool) (x : Node.L1BlockInfo) :
    Except Error Json :=
  match x.Timestamp.jsonMarshalField addressable with
  | .error e => .error e
  | .ok ts => .ok (.obj [("number", .num false x.Number.val), ("timestamp", ts)])

/-- Go `json.Marshal` of an op-node `Header` (by pointer when `addressable`). -/
def Node.Header.jsonMarshal (b64 : List Byte → String) (addressable : Bool)
    (h : Node.Header) : Except Error Json :=
  match h.L1Block.jsonMarshal addressable with
  | .error e => .error e
  | .ok l1 =>
    match jsonMarshalByteSlice b64 h.TransactionsRoot with
    | .error e => .error e
    | .ok root =>
      .ok (.obj [("l1_block", l1), ("timestamp", .num false h.Timestamp.val),
        ("transactions_root", root)])

/-- One object member decoded into an op-node `L1BlockInfo`; `Timestamp` is read by
`(*big.Int).UnmarshalJSON`. -/
def Node.L1BlockInfo.decodeField (x : Node.L1BlockInfo) (key : String) (v : Json) :
    Except Error Node.L1BlockInfo :=
  if keyMatches key "number" then
    match unmarshalUint64 x.Number v with
    | .error e => .error e
    | .ok n => .ok { x with Number := n }
  else if keyMatches key "timestamp" then
    match x.Timestamp.UnmarshalJSON v with
    | .error e => .error e
    | .ok t => .ok { x with Timestamp := t }
  else .ok x

/-- Go `json.Unmarshal` into an op-node `L1BlockInfo` holding `x`. -/
def Node.L1BlockInfo.jsonUnmarshal (x : Node.L1BlockInfo) : Json →
    Except Error Node.L1BlockInfo
  | .obj members => decodeMembers Node.L1BlockInfo.decodeField members x
  | .null => .ok x
  | j => .error (.unmarshalType j.kind "espresso.L1BlockInfo")

/-- One object member decoded into an op-node `Header`. -/
def Node.Header.decodeField (unb64 : String → Option (List Byte)) (h : Node.Header)
    (key : String) (v : Json) : Except Error Node.Header :=
  if keyMatches key "l1_block" then
    match h.L1Block.jsonUnmarshal v with
    | .error e => .error e
    | .ok l1 => .ok { h with L1Block := l1 }
  else if keyMatches key "timestamp" then
    match unmarshalUint64 h.Timestamp v with
    | .error e => .error e
    | .ok n => .ok { h with Timestamp := n }
  else if keyMatches key "transactions_root" then
    match jsonUnmarshalByteSlice unb64 h.TransactionsRoot v with
    | .error e => .error e
    | .ok r => .ok { h with TransactionsRoot := r }
  else .ok h

/-- Go `json.Unmarshal` into an op-node `Header` holding `h`. -/
def Node.Header.jsonUnmarshal (unb64 : String → Option (List Byte)) (h : Node.Header) :
    Json → Except Error Node.Header
  | .obj members => decodeMembers (Node.Header.decodeField unb64) members h
  | .null => .ok h
  | j => .error (.unmarshalType j.kind "espresso.Header")

/-! ## A commitment type without collisions -/

/-- Commitment type on which finalisation is free of collisions: the value is the
finalised builder itself (tag and fields).  It shows that an injective `Finalize`
exists. -/
inductive CommitTree where
  | node (tag : String) (fields : List (BuilderField CommitTree)) : CommitTree

/-- Finalisation into `CommitTree`. -/
def CommitTree.Finalize (b : RawCommitmentBuilder CommitTree) : CommitTree :=
  .node b.tag b.fields

/-! ## Test setup of `op-e2e/e2eutils` -/

/-- Go `common.Address`: 20 bytes, kept as the number they spell. -/
abbrev Address := Fin (2 ^ 160)

/-- Go `core.GenesisAccount`, by its fields; a nil `Balance` is `none`. -/
structure GenesisAccount where
  Code : List Byte
  Storage : List (Nat × Nat)
  Balance : Option Int
  Nonce : Nat
  PrivateKey : List Byte
  deriving DecidableEq, Repr

/-- Go `core.GenesisAlloc`, a `map[common.Address]GenesisAccount`: kept as its entries,
in the order a `range` loop visits them.  The keys of a map are distinct (`WF`). -/
structure GenesisAlloc where
  entries : List (Address × GenesisAccount)
  deriving DecidableEq, Repr

/-- Keys of a map are distinct. -/
def GenesisAlloc.WF (m : GenesisAlloc) : Prop := (m.entries.map Prod.fst).Nodup

/-- Entry of `a` in a list of entries: the first one with that key. -/
def allocLookup (a : Address) : List (Address × GenesisAccount) → Option GenesisAccount
  | [] => none
  | (k, v) :: rest => if k = a then some v else allocLookup a rest

/-- Go map read `m[a]` with its presence flag: `none` when `a` is not a key. -/
def GenesisAlloc.get (m : GenesisAlloc) (a : Address) : Option GenesisAccount :=
  allocLookup a m.entries

/-- Go map write `m[a] = v`: the old entry of `a`, if any, is replaced. -/
def GenesisAlloc.set (m : GenesisAlloc) (a : Address) (v : GenesisAccount) : GenesisAlloc :=
  ⟨(a, v) :: m.entries.filter (fun e => decide (e.1 ≠ a))⟩

/-- Source `var etherScalar = new(big.Int).Exp(big.NewInt(10), big.NewInt(18), nil)`. -/
def etherScalar : Int := 10 ^ 18

/-- Source `func Ether(v uint64) *big.Int`. -/
def Ether (v : Uint64) : Int := (v.val : Int) * etherScalar

/-- Account written for a prefunded test user: `core.GenesisAccount{Balance: Ether(1e12)}`. -/
def prefundAccount : GenesisAccount :=
  { Code := [], Storage := [], Balance := some (Ether 1000000000000), Nonce := 0,
    PrivateKey := [] }

/-- Loop of `Setup`: `for _, addr := range deployParams.Addresses.All() { g.Alloc[addr] =
core.GenesisAccount{Balance: Ether(1e12)} }`. -/
def prefundLoop (addrs : List Address) (g : GenesisAlloc) : GenesisAlloc :=
  addrs.foldl (fun m addr => m.set addr prefundAccount) g

/-- Guarded loop of `Setup`: `if alloc.PrefundTestUsers { for ... }`. -/
def prefundIf (prefund : Bool) (addrs : List Address) (g : GenesisAlloc) : GenesisAlloc :=
  if prefund then prefundLoop addrs g else g

/-- Loop of `Setup`: `for addr, val := range alloc { g.Alloc[addr] = val }`. -/
def overrideLoop (alloc : GenesisAlloc) (g : GenesisAlloc) : GenesisAlloc :=
  alloc.entries.foldl (fun m e => m.set e.1 e.2) g

/-- Source `type AllocParams struct`. -/
structure AllocParams where
  L1Alloc : GenesisAlloc
  L2Alloc : GenesisAlloc
  PrefundTestUsers : Bool
  deriving DecidableEq, Repr

/-- Go `core.Genesis`: the allocation map, and the other fields as one value. -/
structure Genesis (G : Type) where
  Alloc : GenesisAlloc
  rest : G

/-- Source `type DeployParams struct`, as far as `Setup` reads it: the deploy
configuration and the list `Addresses.All()`. -/
structure DeployParams (DC : Type) where
  DeployConfig : DC
  AddressesAll : List Address

/-- Source `type SetupData struct`. -/
structure SetupData (G RC LD : Type) where
  L1Cfg : Genesis G
  L2Cfg : Genesis G
  RollupCfg : RC
  DeploymentsL1 : LD

/-- What `Setup` calls outside its file, as parameters (types `DC` deploy configuration,
`G` rest of a genesis, `BL` block, `RC` rollup configuration, `LD` L1 deployments):
the clock, the copy of the deploy configuration with the genesis timestamp set, the
`Check` methods (`true` for a nil error), the two genesis builders (`none` for an
error; the global `config.L1Allocs` is part of `BuildL1DeveloperGenesis` here),
`ToBlock`, the rollup configuration built from the deploy configuration and the two
genesis blocks, and the three closing `require.Equal` checks. -/
structure SetupDeps (DC G BL RC LD : Type) where
  now : Nat
  copyWithTimestamp : DC → Nat → DC
  deployConfCheck : DC → Bool
  l1Deployments : LD
  l1DeploymentsCheck : LD → Bool
  BuildL1DeveloperGenesis : DC → LD → Option (Genesis G)
  ToBlock : Genesis G → BL
  BuildL2Genesis : DC → BL → Option (Genesis G)
  makeRollupCfg : DC → BL → BL → RC
  rollupCfgCheck : RC → Bool
  sanityChecks : DeployParams DC → Bool

/-- Source `func Setup(t require.TestingT, deployParams *DeployParams, alloc *AllocParams)
*SetupData`.  A failed `require` ends the test, so `Setup` returns nothing (`none`).
The pointers are taken non-nil, and the builders are taken to return a genesis with a
map of its own. -/
def Setup {DC G BL RC LD : Type} (deps : SetupDeps DC G BL RC LD)
    (deployParams : DeployParams DC) (alloc : AllocParams) : Option (SetupData G RC LD) :=
  let deployConf := deps.copyWithTimestamp deployParams.DeployConfig deps.now
  if !deps.deployConfCheck deployConf then none
  else
    let l1Deployments := deps.l1Deployments
    if !deps.l1DeploymentsCheck l1Deployments then none
    else
      match deps.BuildL1DeveloperGenesis deployConf l1Deployments with
      | none => none
      | some l1Built =>
        let l1Prefunded :=
          prefundIf alloc.PrefundTestUsers deployParams.AddressesAll l1Built.Alloc
        let l1Genesis : Genesis G :=
          { l1Built with Alloc := overrideLoop alloc.L1Alloc l1Prefunded }
        let l1Block := deps.ToBlock l1Genesis
        match deps.BuildL2Genesis deployConf l1Block with
        | none => none
        | some l2Built =>
          let l2Prefunded :=
            prefundIf alloc.PrefundTestUsers deployParams.AddressesAll l2Built.Alloc
          let l2Genesis : Genesis G :=
            { l2Built with Alloc := overrideLoop alloc.L2Alloc l2Prefunded }
          let rollupCfg := deps.makeRollupCfg deployConf l1Block (deps.ToBlock l2Genesis)
          if !deps.rollupCfgCheck rollupCfg then none
          else if !deps.sanityChecks deployParams then none
          else
            some { L1Cfg := l1Genesis, L2Cfg := l2Genesis, RollupCfg := rollupCfg,
                   DeploymentsL1 := l1Deployments }

/-- Stand-in collaborators for running `Setup` on concrete inputs: every check passes,
the builders return the maps `l1` and `l2`, all other data is trivial. -/
def unitSetupDeps (l1 l2 : GenesisAlloc) : SetupDeps Unit Unit Unit Unit Unit :=
  { now := 0
    copyWithTimestamp := fun dc _ => dc
    deployConfCheck := fun _ => true
    l1Deployments := ()
    l1DeploymentsCheck := fun _ => true
    BuildL1DeveloperGenesis := fun _ _ => some ⟨l1, ()⟩
    ToBlock := fun _ => ()
    BuildL2Genesis := fun _ _ => some ⟨l2, ()⟩
    makeRollupCfg := fun _ _ _ => ()
    rollupCfgCheck := fun _ => true
    sanityChecks := fun _ => true }

/-! ## Lemmas on the `Bytes` codec -/

theorem set_length_append {α : Type} (done : List α) (z v : α) (tail : List α) :
    (done ++ z :: tail).set done.length v = done ++ v :: tail := by
  induction done with
  | nil => rfl
  | cons d ds ih => simp [List.set, ih]

theorem byteOfInt_val (x : Byte) : byteOfInt (x.val : Int) = x := by
  apply Fin.ext
  have h := x.isLt
  simp only [byteOfInt, Fin.ofNat]
  have h2 : ((x.val : Int) % 256).toNat = x.val := by omega
  rw [h2]
  exact Nat.mod_eq_of_lt h

theorem byteOfInt_toInt (x : Int) (h0 : 0 ≤ x) (h1 : x ≤ 255) :
    ((byteOfInt x).val : Int) = x := by
  simp only [byteOfInt, Fin.ofNat]
  omega

theorem marshalLoop_fill (xs : List Byte) (done : List Int) :
    Bytes.marshalLoop xs done.length (done ++ List.replicate xs.length 0) =
      done ++ xs.map (fun x => (x.val : Int)) := by
  induction xs generalizing done with
  | nil => simp [Bytes.marshalLoop]
  | cons x rest ih =>
    simp only [Bytes.marshalLoop, List.length_cons, List.replicate_succ, List.map_cons]
    rw [set_length_append]
    have h := ih (done ++ [(x.val : Int)])
    simp only [List.length_append, List.length_singleton, List.append_assoc,
      List.singleton_append] at h
    exact h

theorem unmarshalLoop_fill (xs : List Int) (done : List Byte)
    (h : ∀ x ∈ xs, 0 ≤ x ∧ x ≤ 255) :
    Bytes.unmarshalLoop xs done.length (done ++ List.replicate xs.length 0) =
      (done ++ xs.map byteOfInt, none) := by
  induction xs generalizing done with
  | nil => simp [Bytes.unmarshalLoop]
  | cons x rest ih =>
    have hx := h x (List.mem_cons_self x rest)
    have hrest : ∀ y ∈ rest, 0 ≤ y ∧ y ≤ 255 := fun y hy => h y (List.mem_cons_of_mem x hy)
    have hcond : ¬ (x < 0 ∨ 255 < x) := by omega
    simp only [Bytes.unmarshalLoop, if_neg hcond, List.length_cons, List.replicate_succ,
      List.map_cons]
    rw [set_length_append]
    have h2 := ih (done ++ [byteOfInt x]) hrest
    simp only [List.length_append, List.length_singleton, List.append_assoc,
      List.singleton_append] at h2
    exact h2

theorem unmarshalLoop_error (xs : List Int) (i : Nat) (buf : List Byte)
    (h : ∃ x ∈ xs, x < 0 ∨ 255 < x) : (Bytes.unmarshalLoop xs i buf).2 ≠ none := by
  induction xs generalizing i buf with
  | nil => simp at h
  | cons x rest ih =>
    simp only [Bytes.unmarshalLoop]
    by_cases hc : x < 0 ∨ 255 < x
    · simp [if_pos hc]
    · rw [if_neg hc]
      apply ih
      obtain ⟨y, hy, hr⟩ := h
      rcases List.mem_cons.mp hy with rfl | hy2
      · exact absurd hr hc
      · exact ⟨y, hy2, hr⟩

theorem Json_ofInt_natCast (n : Nat) : Json.ofInt (n : Int) = .num false n := by
  simp [Json.ofInt]

theorem Bytes_MarshalJSON_eq (b : Bytes) :
    Bytes.MarshalJSON b = .ok (.arr (b.toList.map (fun x => Json.num false x.val))) := by
  have h := marshalLoop_fill b.toList []
  simp only [List.length_nil, List.nil_append] at h
  unfold Bytes.MarshalJSON Slice.make Slice.len
  simp only [Slice.toList.eq_2, h, jsonMarshalInts, List.map_map]
  congr 2

/-- Element decode of an array of integer literals: all inside the `int64` range gives
their values. -/
theorem unmarshalIntElems_lits (lits : List (Bool × Nat))
    (h : ∀ l ∈ lits, -(2 : Int) ^ 63 ≤ litValue l.1 l.2 ∧ litValue l.1 l.2 < (2 : Int) ^ 63) :
    unmarshalIntElems (lits.map (fun l => Json.num l.1 l.2)) =
      .ok (lits.map (fun l => litValue l.1 l.2)) := by
  induction lits with
  | nil => rfl
  | cons l rest ih =>
    have hl := h l (List.mem_cons_self l rest)
    have hrest := ih (fun y hy => h y (List.mem_cons_of_mem l hy))
    simp only [List.map_cons, unmarshalIntElems, unmarshalInt, if_pos hl, hrest]

/-- Element decode of an array of integer literals fails when one is outside `int64`. -/
theorem unmarshalIntElems_lits_error (lits : List (Bool × Nat))
    (h : ∃ l ∈ lits, ¬ (-(2 : Int) ^ 63 ≤ litValue l.1 l.2 ∧ litValue l.1 l.2 < (2 : Int) ^ 63)) :
    ∃ e, unmarshalIntElems (lits.map (fun l => Json.num l.1 l.2)) = .error e := by
  induction lits with
  | nil => simp at h
  | cons l rest ih =>
    by_cases hl : -(2 : Int) ^ 63 ≤ litValue l.1 l.2 ∧ litValue l.1 l.2 < (2 : Int) ^ 63
    · have hrest : ∃ l ∈ rest, ¬ (-(2 : Int) ^ 63 ≤ litValue l.1 l.2 ∧
          litValue l.1 l.2 < (2 : Int) ^ 63) := by
        obtain ⟨y, hy, hr⟩ := h
        rcases List.mem_cons.mp hy with rfl | hy2
        · exact absurd hl hr
        · exact ⟨y, hy2, hr⟩
      obtain ⟨e, he⟩ := ih hrest
      exact ⟨e, by simp only [List.map_cons, unmarshalIntElems, unmarshalInt, if_pos hl, he]⟩
    · exact ⟨.unmarshalType "number" "int", by
        simp only [List.map_cons, unmarshalIntElems, unmarshalInt, if_neg hl]⟩

theorem Bytes_UnmarshalJSON_arr (recv : Bytes) (items : List Json) (vs : List Int)
    (h : unmarshalIntElems items = .ok vs) :
    Bytes.UnmarshalJSON recv (.arr items) =
      (.mk (Bytes.unmarshalLoop vs 0 (List.replicate vs.length 0)).1,
        (Bytes.unmarshalLoop vs 0 (List.replicate vs.length 0)).2) := by
  unfold Bytes.UnmarshalJSON jsonUnmarshalInts Slice.make Slice.len
  simp only [h, Slice.toList.eq_2]

/-! ## Lemmas on the `U256` codec -/

theorem hexChar_props (d : Nat) (h : d < 16) :
    (hexChar d).toNat < 128 ∧ digitVal (hexChar d) = d ∧ isSpace (hexChar d) = false ∧
      hexChar d ≠ '-' ∧ hexChar d ≠ '+' ∧ hexChar d ≠ '\r' ∧ hexChar d ≠ '\n' ∧
      hexChar d ∈ "0123456789abcdef".toList ∧ (hexChar d = '0' → d = 0) := by
  interval_cases d <;> decide

theorem hexDigitsAux_eq (fuel n : Nat) (acc : List Char) (hn : 0 < n) (h : n < 16 ^ fuel) :
    hexDigitsAux fuel n acc = (Nat.digits 16 n).reverse.map hexChar ++ acc := by
  induction fuel generalizing n acc with
  | zero => simp at h; omega
  | succ f ih =>
    unfold hexDigitsAux
    by_cases h16 : n < 16
    · rw [if_pos h16, Nat.digits_of_lt 16 n (by omega) h16]
      rfl
    · rw [if_neg h16]
      have hpos : 0 < n / 16 := Nat.div_pos (by omega) (by norm_num)
      have hlt : n / 16 < 16 ^ f := by
        rw [Nat.div_lt_iff_lt_mul (by norm_num)]
        rw [pow_succ] at h
        exact h
      rw [ih (n / 16) _ hpos hlt, Nat.digits_def' (by norm_num : 1 < 16) hn]
      simp

theorem hexDigits_eq (n : Nat) (hn : 0 < n) :
    hexDigits n = (Nat.digits 16 n).reverse.map hexChar := by
  have h : n < 16 ^ (n + 1) :=
    lt_trans (Nat.lt_pow_self (by norm_num : 1 < 16) n)
      (Nat.pow_lt_pow_right (by norm_num) (Nat.lt_succ_self n))
  have := hexDigitsAux_eq (n + 1) n [] hn h
  simpa [hexDigits] using this

theorem hexDigits_zero : hexDigits 0 = ['0'] := rfl

theorem hexDigits_values (n : Nat) : hexDigits n = (hexValues n).map hexChar := by
  unfold hexValues
  by_cases h : n = 0
  · subst h; rfl
  · rw [if_neg h, hexDigits_eq n (Nat.pos_of_ne_zero h)]

theorem hexValues_lt (n : Nat) : ∀ d ∈ hexValues n, d < 16 := by
  intro d hd
  unfold hexValues at hd
  by_cases h : n = 0
  · rw [if_pos h] at hd
    simp at hd
    omega
  · rw [if_neg h] at hd
    exact Nat.digits_lt_base (by norm_num) (List.mem_reverse.mp hd)

theorem hexValues_ne_nil (n : Nat) : hexValues n ≠ [] := by
  unfold hexValues
  by_cases h : n = 0
  · simp [h]
  · rw [if_neg h]
    simpa using Nat.digits_ne_nil_iff_ne_zero.mpr h

theorem hexValues_foldl (n : Nat) :
    (hexValues n).foldl (fun a d => a * 16 + d) 0 = n := by
  unfold hexValues
  by_cases h : n = 0
  · simp [h]
  · rw [if_neg h, List.foldl_reverse]
    have h2 := Nat.ofDigits_digits 16 n
    rw [Nat.ofDigits_eq_foldr] at h2
    conv_rhs => rw [← h2]
    congr 1
    funext x y
    simp
    ring

theorem scanDigits_hex (ds : List Nat) (hds : ∀ d ∈ ds, d < 16) (rest : List Char)
    (acc cnt : Nat) :
    scanDigits 16 (ds.map hexChar ++ rest) acc cnt =
      scanDigits 16 rest (ds.foldl (fun a d => a * 16 + d) acc) (cnt + ds.length) := by
  induction ds generalizing acc cnt with
  | nil => simp
  | cons d tl ih =>
    have hd := hexChar_props d (hds d (List.mem_cons_self d tl))
    have h1 : ¬ (128 ≤ (hexChar d).toNat) := by omega
    have h2 : ¬ (16 ≤ digitVal (hexChar d)) := by
      rw [hd.2.1]
      have := hds d (List.mem_cons_self d tl)
      omega
    simp only [List.map_cons, List.cons_append, scanDigits, if_neg h1, if_neg h2,
      List.foldl_cons, List.length_cons, List.append_eq]
    rw [ih (fun x hx => hds x (List.mem_cons_of_mem d hx)), hd.2.1]
    congr 1
    omega

theorem skipSpace_nonspace (c : Char) (rest : List Char) (h : isSpace c = false) :
    skipSpace (c :: rest) = .ok (c :: rest) := by
  have h1 : c ≠ '\r' := by
    rintro rfl
    exact absurd h (by decide)
  have h2 : c ≠ '\n' := by
    rintro rfl
    exact absurd h (by decide)
  simp [skipSpace, h1, h2, h]

theorem scanSign_plain (c : Char) (rest : List Char) (h : c.toNat < 128) (hm : c ≠ '-')
    (hp : c ≠ '+') : scanSign (c :: rest) = .ok (false, c :: rest) := by
  have h1 : ¬ (128 ≤ c.toNat) := by omega
  simp [scanSign, h1, hm, hp]

theorem natScan16_hex (ds : List Nat) (hne : ds ≠ []) (hds : ∀ d ∈ ds, d < 16) :
    natScan16 (ds.map hexChar) = (ds.foldl (fun a d => a * 16 + d) 0, none) := by
  have h := scanDigits_hex ds hds [] 0 0
  simp only [List.append_nil, scanDigits, Nat.zero_add] at h
  have hlen : ds.length ≠ 0 := by
    intro h0
    exact hne (List.length_eq_zero.mp h0)
  simp [natScan16, h, hlen]

theorem matchRune_ok (f : Char) (l rest : List Char) (h : matchRune f l = .ok rest) :
    l = f :: rest := by
  cases l with
  | nil => simp [matchRune] at h
  | cons c tl =>
    simp only [matchRune] at h
    split_ifs at h with h1
    simp only [ne_eq, not_not] at h1
    simp only [Except.ok.injEq] at h
    rw [h1, h]

theorem matchRune_self (f : Char) (rest : List Char) : matchRune f (f :: rest) = .ok rest := by
  simp [matchRune]

theorem Sscanf0xHex_matched (s : String) (z : BigInt) (t : List Char)
    (h : s.toList = '0' :: 'x' :: t) :
    Sscanf0xHex s z =
      match skipSpace t with
      | .error e => (z, some e)
      | .ok t2 => BigInt.Scan z t2 := by
  unfold Sscanf0xHex
  rw [h, matchRune_self]
  simp only [matchRune_self]

theorem Sscanf0xHex_mismatch (s : String) (z : BigInt)
    (h : ¬ ∃ t, s.toList = '0' :: 'x' :: t) : (Sscanf0xHex s z).2 ≠ none := by
  unfold Sscanf0xHex
  cases h0 : matchRune '0' s.toList with
  | error e => simp
  | ok t0 =>
    cases h1 : matchRune 'x' t0 with
    | error e => simp [h1]
    | ok t1 =>
      exfalso
      apply h
      have e0 := matchRune_ok _ _ _ h0
      have e1 := matchRune_ok _ _ _ h1
      exact ⟨t1, by rw [e0, e1]⟩

theorem Sscanf0xHex_hex (z : BigInt) (ds : List Nat) (hne : ds ≠ [])
    (hds : ∀ d ∈ ds, d < 16) :
    Sscanf0xHex (String.mk ('0' :: 'x' :: ds.map hexChar)) z =
      (⟨false, ds.foldl (fun a d => a * 16 + d) 0⟩, none) := by
  obtain ⟨d, tl, rfl⟩ := List.exists_cons_of_ne_nil hne
  have hd := hexChar_props d (hds d (List.mem_cons_self d tl))
  have hsk := skipSpace_nonspace (hexChar d) (tl.map hexChar) hd.2.2.1
  have hsg := scanSign_plain (hexChar d) (tl.map hexChar) hd.1 hd.2.2.2.1 hd.2.2.2.2.1
  have hnat := natScan16_hex (d :: tl) hne hds
  simp only [List.map_cons] at hnat
  rw [Sscanf0xHex_matched _ z ((d :: tl).map hexChar) rfl]
  simp only [List.map_cons, hsk, BigInt.Scan, BigInt.scan16, hsg, hnat, Bool.and_false]

theorem Text16_nonneg (n : Nat) : BigInt.Text16 ⟨false, n⟩ = String.mk (hexDigits n) := by
  unfold BigInt.Text16
  by_cases h : n = 0
  · subst h; rfl
  · simp [h]

theorem U256_MarshalJSON_nonneg (n : Nat) :
    U256.MarshalJSON ⟨⟨false, n⟩⟩ = .ok (.str (String.mk ('0' :: 'x' :: hexDigits n))) := by
  simp only [U256.MarshalJSON, jsonMarshalString, Text16_nonneg]
  rfl

/-- Decoding the encoding of a non-negative value gives the value back, whatever the
receiver held. -/
theorem U256_roundtrip_nonneg (recv : U256) (n : Nat) :
    U256.UnmarshalJSON recv (.str (String.mk ('0' :: 'x' :: hexDigits n))) =
      (⟨⟨false, n⟩⟩, none) := by
  have h := Sscanf0xHex_hex recv.toBigInt (hexValues n) (hexValues_ne_nil n) (hexValues_lt n)
  rw [hexValues_foldl, ← hexDigits_values] at h
  simp only [U256.UnmarshalJSON, jsonUnmarshalString, h]

theorem skipSpace_split (l l2 : List Char) (h : skipSpace l = .ok l2) :
    ∃ sp, l = sp ++ l2 ∧ ∀ c ∈ sp, isSpace c = true := by
  induction l with
  | nil =>
    simp only [skipSpace, Except.ok.injEq] at h
    subst h
    exact ⟨[], rfl, by simp⟩
  | cons r rest ih =>
    unfold skipSpace at h
    split_ifs at h with h1 h2 h3
    · obtain ⟨sp, hsp, hall⟩ := ih h
      refine ⟨r :: sp, by rw [hsp]; rfl, ?_⟩
      intro c hc
      rcases List.mem_cons.mp hc with rfl | hc2
      · rw [h1.1]; decide
      · exact hall c hc2
    · simp only [Except.ok.injEq] at h
      subst h
      exact ⟨[], rfl, by simp⟩
    · obtain ⟨sp, hsp, hall⟩ := ih h
      refine ⟨r :: sp, by rw [hsp]; rfl, ?_⟩
      intro c hc
      rcases List.mem_cons.mp hc with rfl | hc2
      · simpa using h3
      · exact hall c hc2

theorem scanSign_neg (l rest : List Char) (h : scanSign l = .ok (true, rest)) :
    l = '-' :: rest := by
  cases l with
  | nil => simp [scanSign] at h
  | cons c tl =>
    simp only [scanSign] at h
    split_ifs at h with h1 h2 h3
    · simp only [Except.ok.injEq, Prod.mk.injEq, true_and] at h
      rw [h2, h]
    · simp at h
    · simp at h

theorem BigInt_scan16_neg (z : BigInt) (l : List Char)
    (hok : (BigInt.scan16 z l).2 = none) (hneg : (BigInt.scan16 z l).1.neg = true) :
    ∃ rest, l = '-' :: rest := by
  unfold BigInt.scan16 at hok hneg
  cases hs : scanSign l with
  | error e => simp [hs] at hok
  | ok p =>
    obtain ⟨neg, rest⟩ := p
    simp only [hs] at hok hneg
    cases hn : natScan16 rest with
    | mk v err =>
      cases err with
      | some e => simp [hn] at hok
      | none =>
        simp only [hn, Bool.and_eq_true] at hneg
        have : neg = true := hneg.2
        subst this
        exact ⟨rest, scanSign_neg l rest hs⟩

theorem BigInt_Scan_neg (z : BigInt) (l : List Char)
    (hok : (BigInt.Scan z l).2 = none) (hneg : (BigInt.Scan z l).1.neg = true) :
    ∃ sp rest, l = sp ++ '-' :: rest ∧ ∀ c ∈ sp, isSpace c = true := by
  unfold BigInt.Scan at hok hneg
  cases hs : skipSpace l with
  | error e => simp [hs] at hok
  | ok l2 =>
    simp only [hs] at hok hneg
    obtain ⟨sp, hsp, hall⟩ := skipSpace_split l l2 hs
    obtain ⟨rest, hrest⟩ := BigInt_scan16_neg z l2 hok hneg
    exact ⟨sp, rest, by rw [hsp, hrest], hall⟩

/-- A successful scan stores a negative value only when a minus sign follows the "0x"
prefix and the skipped white space. -/
theorem Sscanf0xHex_neg (s : String) (z : BigInt)
    (hok : (Sscanf0xHex s z).2 = none) (hneg : (Sscanf0xHex s z).1.neg = true) :
    ∃ sp rest, s.toList = '0' :: 'x' :: (sp ++ '-' :: rest) ∧ ∀ c ∈ sp, isSpace c = true := by
  by_cases hp : ∃ t, s.toList = '0' :: 'x' :: t
  · obtain ⟨t, ht⟩ := hp
    rw [Sscanf0xHex_matched s z t ht] at hok hneg
    cases hs : skipSpace t with
    | error e =>
      rw [hs] at hok
      simp at hok
    | ok t2 =>
      rw [hs] at hok hneg
      obtain ⟨sp1, hsp1, hall1⟩ := skipSpace_split t t2 hs
      obtain ⟨sp2, rest, hsp2, hall2⟩ := BigInt_Scan_neg z t2 hok hneg
      refine ⟨sp1 ++ sp2, rest, by rw [ht, hsp1, hsp2, List.append_assoc], ?_⟩
      intro c hc
      rcases List.mem_append.mp hc with h | h
      · exact hall1 c h
      · exact hall2 c h
  · exact absurd hok (Sscanf0xHex_mismatch s z hp)

theorem hexDigits_chars (n : Nat) : ∀ c ∈ hexDigits n, c ∈ "0123456789abcdef".toList := by
  intro c hc
  rw [hexDigits_values] at hc
  obtain ⟨d, hd, rfl⟩ := List.mem_map.mp hc
  exact (hexChar_props d (hexValues_lt n d hd)).2.2.2.2.2.2.2.1

theorem hexDigits_no_leading_zero (n : Nat) :
    hexDigits n = ['0'] ∨ (hexDigits n).head? ≠ some '0' := by
  by_cases h : n = 0
  · left
    subst h
    rfl
  · right
    rw [hexDigits_eq n (Nat.pos_of_ne_zero h)]
    have hne : Nat.digits 16 n ≠ [] := Nat.digits_ne_nil_iff_ne_zero.mpr h
    have hlast := Nat.getLast_digit_ne_zero 16 h
    intro hhead
    rw [List.head?_map, List.head?_reverse, List.getLast?_eq_getLast _ hne] at hhead
    simp only [Option.map_some', Option.some.injEq] at hhead
    have hlt : (Nat.digits 16 n).getLast hne < 16 :=
      Nat.digits_lt_base (by norm_num) (List.getLast_mem hne)
    exact hlast ((hexChar_props _ hlt).2.2.2.2.2.2.2.2 hhead)

theorem foldl_hex_replicate_zero (k : Nat) :
    (List.replicate k 0).foldl (fun a d => a * 16 + d) 0 = 0 := by
  induction k with
  | zero => rfl
  | succ k ih => simpa [List.replicate_succ] using ih

/-- Decoding "0x", then `k` zero digits, then the digits written for `n`, stores `n`. -/
theorem U256_decode_leading_zeros (recv : U256) (n k : Nat) :
    U256.UnmarshalJSON recv
        (.str (String.mk ('0' :: 'x' :: (List.replicate k '0' ++ hexDigits n)))) =
      (⟨⟨false, n⟩⟩, none) := by
  have hne : List.replicate k 0 ++ hexValues n ≠ [] := by
    intro h
    exact hexValues_ne_nil n (List.append_eq_nil.mp h).2
  have hlt : ∀ d ∈ List.replicate k 0 ++ hexValues n, d < 16 := by
    intro d hd
    rcases List.mem_append.mp hd with h | h
    · rw [(List.mem_replicate.mp h).2]
      norm_num
    · exact hexValues_lt n d h
  have h := Sscanf0xHex_hex recv.toBigInt _ hne hlt
  have hz : hexChar 0 = '0' := rfl
  rw [List.foldl_append, foldl_hex_replicate_zero, hexValues_foldl, List.map_append,
    List.map_replicate, hz, ← hexDigits_values] at h
  simp only [U256.UnmarshalJSON, jsonUnmarshalString, h]

/-! ## When the scan of a `U256` string succeeds -/

set_option maxRecDepth 100000 in
theorem hexByte_props (c : Char) (h1 : c.toNat < 128) (h2 : digitVal c < 16) :
    isSpace c = false ∧ c ≠ '-' ∧ c ≠ '+' := by
  have key : ∀ n, n < 128 → digitVal (Char.ofNat n) < 16 →
      (isSpace (Char.ofNat n) = false ∧ Char.ofNat n ≠ '-' ∧ Char.ofNat n ≠ '+') := by
    decide
  have h := key c.toNat h1
  rw [Char.ofNat_toNat] at h
  exact h h2

theorem skipSpace_split_nl (l l2 : List Char) (h : skipSpace l = .ok l2) :
    ∃ sp, l = sp ++ l2 ∧ ∀ c ∈ sp, isSpace c = true ∧ c ≠ '\n' := by
  induction l with
  | nil =>
    simp only [skipSpace, Except.ok.injEq] at h
    subst h
    exact ⟨[], rfl, by simp⟩
  | cons r rest ih =>
    unfold skipSpace at h
    split_ifs at h with h1 h2 h3
    · obtain ⟨sp, hsp, hall⟩ := ih h
      refine ⟨r :: sp, by rw [hsp]; rfl, ?_⟩
      intro c hc
      rcases List.mem_cons.mp hc with rfl | hc2
      · rw [h1.1]; decide
      · exact hall c hc2
    · simp only [Except.ok.injEq] at h
      subst h
      exact ⟨[], rfl, by simp⟩
    · obtain ⟨sp, hsp, hall⟩ := ih h
      refine ⟨r :: sp, by rw [hsp]; rfl, ?_⟩
      intro c hc
      rcases List.mem_cons.mp hc with rfl | hc2
      · exact ⟨by simpa using h3, h2⟩
      · exact hall c hc2

theorem skipSpace_run (sp : List Char) (c : Char) (tl : List Char)
    (hsp : ∀ x ∈ sp, isSpace x = true ∧ x ≠ '\n') (hc : isSpace c = false) :
    skipSpace (sp ++ c :: tl) = .ok (c :: tl) := by
  induction sp with
  | nil => exact skipSpace_nonspace c tl hc
  | cons r rest ih =>
    have hr := hsp r (List.mem_cons_self r rest)
    have ih2 := ih (fun x hx => hsp x (List.mem_cons_of_mem r hx))
    rw [List.cons_append]
    unfold skipSpace
    split_ifs with h1 h2 h3
    · exact ih2
    · exact absurd h2 hr.2
    · rw [hr.1] at h3
      exact absurd h3 (by decide)
    · exact ih2

theorem scanDigits_run (ds rest : List Char) (acc cnt : Nat)
    (hds : ∀ c ∈ ds, c.toNat < 128 ∧ digitVal c < 16)
    (hrest : rest = [] ∨ ∃ c tl, rest = c :: tl ∧ c.toNat < 128 ∧ 16 ≤ digitVal c) :
    ∃ v, scanDigits 16 (ds ++ rest) acc cnt = (v, cnt + ds.length, none) := by
  induction ds generalizing acc cnt with
  | nil =>
    rcases hrest with rfl | ⟨c, tl, rfl, h1, h2⟩
    · exact ⟨acc, rfl⟩
    · have h128 : ¬ (128 ≤ c.toNat) := by omega
      exact ⟨acc, by simp only [List.nil_append, scanDigits, if_neg h128, if_pos h2,
        List.length_nil, Nat.add_zero]⟩
  | cons d tl ih =>
    have hd := hds d (List.mem_cons_self d tl)
    have h128 : ¬ (128 ≤ d.toNat) := by omega
    have h16 : ¬ (16 ≤ digitVal d) := by omega
    obtain ⟨v, hv⟩ := ih (acc * 16 + digitVal d) (cnt + 1)
      (fun x hx => hds x (List.mem_cons_of_mem d hx))
    refine ⟨v, ?_⟩
    rw [List.cons_append, scanDigits, if_neg h128, if_neg h16, hv, List.length_cons]
    congr 2
    omega

theorem scanDigits_inv (l : List Char) (acc cnt v cnt2 : Nat)
    (h : scanDigits 16 l acc cnt = (v, cnt2, none)) :
    ∃ ds rest, l = ds ++ rest ∧ (∀ c ∈ ds, c.toNat < 128 ∧ digitVal c < 16) ∧
      cnt2 = cnt + ds.length ∧
      (rest = [] ∨ ∃ c tl, rest = c :: tl ∧ c.toNat < 128 ∧ 16 ≤ digitVal c) := by
  induction l generalizing acc cnt with
  | nil =>
    simp only [scanDigits, Prod.mk.injEq, and_true] at h
    exact ⟨[], [], rfl, by simp, by simp [h.2], Or.inl rfl⟩
  | cons c tl ih =>
    rw [scanDigits] at h
    split_ifs at h with h1 h2
    · simp at h
    · simp only [Prod.mk.injEq, and_true] at h
      exact ⟨[], c :: tl, rfl, by simp, by simp [h.2],
        Or.inr ⟨c, tl, rfl, by omega, h2⟩⟩
    · obtain ⟨ds, rest, hl, hds, hcnt, hrest⟩ := ih _ _ h
      refine ⟨c :: ds, rest, by rw [hl]; rfl, ?_, by rw [hcnt, List.length_cons]; omega, hrest⟩
      intro x hx
      rcases List.mem_cons.mp hx with rfl | hx2
      · exact ⟨by omega, by omega⟩
      · exact hds x hx2

/-- The shape of the text after "0x" on which the scan succeeds: white space without
newline, an optional sign, at least one hex digit (`0-9`, `a-f`, `A-F`), and then
either nothing or an ASCII character that is not a hex digit (with anything after). -/
theorem scanTail_ok_iff (z : BigInt) (t : List Char) :
    ((match skipSpace t with
      | .error e => (z, some e)
      | .ok t2 => BigInt.Scan z t2) : BigInt × Option Error).2 = none ↔
    ∃ sp sign ds rest, t = sp ++ (sign ++ (ds ++ rest)) ∧
      (∀ c ∈ sp, isSpace c = true ∧ c ≠ '\n') ∧
      (sign = [] ∨ sign = ['-'] ∨ sign = ['+']) ∧
      ds ≠ [] ∧ (∀ c ∈ ds, c.toNat < 128 ∧ digitVal c < 16) ∧
      (rest = [] ∨ ∃ c tl, rest = c :: tl ∧ c.toNat < 128 ∧ 16 ≤ digitVal c) := by
  constructor
  · intro h
    cases hs : skipSpace t with
    | error e => simp [hs] at h
    | ok t2 =>
      simp only [hs] at h
      obtain ⟨sp1, hsp1, hall1⟩ := skipSpace_split_nl t t2 hs
      unfold BigInt.Scan at h
      cases hs2 : skipSpace t2 with
      | error e => simp [hs2] at h
      | ok t3 =>
        simp only [hs2] at h
        obtain ⟨sp2, hsp2, hall2⟩ := skipSpace_split_nl t2 t3 hs2
        unfold BigInt.scan16 at h
        cases hg : scanSign t3 with
        | error e => simp [hg] at h
        | ok p =>
          obtain ⟨neg, t4⟩ := p
          simp only [hg] at h
          cases hn : natScan16 t4 with
          | mk v err =>
            cases err with
            | some e => simp [hn] at h
            | none =>
              -- the digits
              unfold natScan16 at hn
              simp only at hn
              split_ifs at hn with hcnt
              · simp at hn
              · simp only [Prod.mk.injEq] at hn
                obtain ⟨ds, rest, hl, hds, hc2, hrest⟩ :=
                  scanDigits_inv t4 0 0 (scanDigits 16 t4 0 0).1 (scanDigits 16 t4 0 0).2.1
                    (by rw [← hn.2])
                have hne : ds ≠ [] := by
                  intro hnil
                  rw [hnil] at hc2
                  exact hcnt (by simpa using hc2)
                -- the sign
                have hsign : ∃ sign, t3 = sign ++ t4 ∧
                    (sign = [] ∨ sign = ['-'] ∨ sign = ['+']) := by
                  cases t3 with
                  | nil => simp [scanSign] at hg
                  | cons c tl =>
                    simp only [scanSign] at hg
                    split_ifs at hg with g1 g2 g3
                    · simp only [Except.ok.injEq, Prod.mk.injEq] at hg
                      exact ⟨['-'], by rw [g2, ← hg.2]; rfl, Or.inr (Or.inl rfl)⟩
                    · simp only [Except.ok.injEq, Prod.mk.injEq] at hg
                      exact ⟨['+'], by rw [g3, ← hg.2]; rfl, Or.inr (Or.inr rfl)⟩
                    · simp only [Except.ok.injEq, Prod.mk.injEq] at hg
                      exact ⟨[], by rw [← hg.2]; rfl, Or.inl rfl⟩
                obtain ⟨sign, hsg, hsgn⟩ := hsign
                refine ⟨sp1 ++ sp2, sign, ds, rest, ?_, ?_, hsgn, hne, hds, hrest⟩
                · rw [hsp1, hsp2, hsg, hl, List.append_assoc]
                · intro c hc
                  rcases List.mem_append.mp hc with hc1 | hc1
                  · exact hall1 c hc1
                  · exact hall2 c hc1
  · rintro ⟨sp, sign, ds, rest, ht, hsp, hsign, hne, hds, hrest⟩
    obtain ⟨d, dtl, rfl⟩ := List.exists_cons_of_ne_nil hne
    have hd := hds d (List.mem_cons_self d dtl)
    have hdp := hexByte_props d hd.1 hd.2
    obtain ⟨v, hv⟩ := scanDigits_run (d :: dtl) rest 0 0 hds hrest
    have hnat : natScan16 (d :: dtl ++ rest) = (v, none) := by
      unfold natScan16
      rw [hv]
      simp
    have hsg0 := scanSign_plain d (dtl ++ rest) hd.1 hdp.2.1 hdp.2.2
    rcases hsign with rfl | rfl | rfl
    · have h1 : skipSpace t = .ok (d :: (dtl ++ rest)) := by
        rw [ht]
        exact skipSpace_run sp d (dtl ++ rest) hsp hdp.1
      have h2 := skipSpace_nonspace d (dtl ++ rest) hdp.1
      rw [h1]
      simp only [BigInt.Scan, h2, BigInt.scan16, hsg0]
      rw [show d :: (dtl ++ rest) = d :: dtl ++ rest from rfl, hnat]
    · have h1 : skipSpace t = .ok ('-' :: (d :: dtl ++ rest)) := by
        rw [ht]
        exact skipSpace_run sp '-' _ hsp (by decide)
      have h2 := skipSpace_nonspace '-' (d :: dtl ++ rest) (by decide)
      have hsg : scanSign ('-' :: (d :: dtl ++ rest)) = .ok (true, d :: dtl ++ rest) := by
        simp [scanSign]
      rw [h1]
      simp only [BigInt.Scan, h2, BigInt.scan16, hsg, hnat]
    · have h1 : skipSpace t = .ok ('+' :: (d :: dtl ++ rest)) := by
        rw [ht]
        exact skipSpace_run sp '+' _ hsp (by decide)
      have h2 := skipSpace_nonspace '+' (d :: dtl ++ rest) (by decide)
      have hsg : scanSign ('+' :: (d :: dtl ++ rest)) = .ok (false, d :: dtl ++ rest) := by
        simp [scanSign]
      rw [h1]
      simp only [BigInt.Scan, h2, BigInt.scan16, hsg, hnat]

/-! ## Claims on the `U256` codec -/

/-- C2: for every `n` with `0 ≤ n < 2^256` and every previous receiver content,
`U256.MarshalJSON` of `n` succeeds and `U256.UnmarshalJSON` applied to its output
returns no error and stores exactly `n`. -/
theorem C2_u256_roundtrip (recv : U256) (n : Nat) (_hn : n < 2 ^ 256) :
    ∃ j, U256.MarshalJSON ⟨⟨false, n⟩⟩ = .ok j ∧
      U256.UnmarshalJSON recv j = (⟨⟨false, n⟩⟩, none) ∧
      (U256.UnmarshalJSON recv j).1.toBigInt.toInt = (n : Int) := by
  refine ⟨_, U256_MarshalJSON_nonneg n, U256_roundtrip_nonneg recv n, ?_⟩
  rw [U256_roundtrip_nonneg recv n]
  rfl

/-- C2 at the largest value of the declared width, `2^256 - 1`. -/
theorem C2_u256_roundtrip_witness :
    ∃ j, U256.MarshalJSON ⟨⟨false, 2 ^ 256 - 1⟩⟩ = .ok j ∧
      U256.UnmarshalJSON NewU256 j = (⟨⟨false, 2 ^ 256 - 1⟩⟩, none) ∧
      (U256.UnmarshalJSON NewU256 j).1.toBigInt.toInt = ((2 ^ 256 - 1 : Nat) : Int) :=
  C2_u256_roundtrip NewU256 (2 ^ 256 - 1) (by norm_num)

/-- C4, as stated, fails: the string "0x12zz" has the non-hex character `z` after the
"0x" prefix, yet `U256.UnmarshalJSON` returns no error and stores `0x12 = 18`. -/
theorem C4_u256_trailing_garbage_accepted :
    'z' ∈ "0x12zz".toList.drop 2 ∧ 16 ≤ digitVal 'z' ∧
      U256.UnmarshalJSON NewU256 (.str "0x12zz") = (⟨⟨false, 18⟩⟩, none) := by
  decide

/-- C4, amended: `U256.UnmarshalJSON` of the JSON string `s` returns an error if and only
if `s` is not of this form: "0x", then white space without newline (possibly none), then
an optional sign, then at least one hex digit (`0-9`, `a-f`, `A-F`), then either the end
of the string or an ASCII character that is not a hex digit, followed by anything.  So it
fails when `s` does not start with "0x" ("zz", "12"), when no hex digit follows the prefix,
the white space and the sign ("0x", "0xzz", "0x-zz", "0x zz", "0x+", "0x  "), and when a
non-ASCII character follows the digits ("0x12é"). -/
theorem C4_u256_format_error (recv : U256) (s : String) :
    ((U256.UnmarshalJSON recv (.str s)).2 ≠ none ↔
      ¬ ∃ sp sign ds rest, s.toList = '0' :: 'x' :: (sp ++ (sign ++ (ds ++ rest))) ∧
        (∀ c ∈ sp, isSpace c = true ∧ c ≠ '\n') ∧
        (sign = [] ∨ sign = ['-'] ∨ sign = ['+']) ∧
        ds ≠ [] ∧ (∀ c ∈ ds, c.toNat < 128 ∧ digitVal c < 16) ∧
        (rest = [] ∨ ∃ c tl, rest = c :: tl ∧ c.toNat < 128 ∧ 16 ≤ digitVal c)) ∧
      (U256.UnmarshalJSON NewU256 (.str "zz")).2 ≠ none ∧
      (U256.UnmarshalJSON NewU256 (.str "12")).2 ≠ none ∧
      (U256.UnmarshalJSON NewU256 (.str "0x")).2 ≠ none ∧
      (U256.UnmarshalJSON NewU256 (.str "0xzz")).2 ≠ none ∧
      (U256.UnmarshalJSON NewU256 (.str "0x-zz")).2 ≠ none ∧
      (U256.UnmarshalJSON NewU256 (.str "0x zz")).2 ≠ none ∧
      (U256.UnmarshalJSON NewU256 (.str "0x+")).2 ≠ none ∧
      (U256.UnmarshalJSON NewU256 (.str "0x  ")).2 ≠ none ∧
      (U256.UnmarshalJSON NewU256 (.str "0x12é")).2 ≠ none := by
  refine ⟨?_, by decide, by decide, by decide, by decide, by decide, by decide, by decide,
    by decide, by decide⟩
  simp only [U256.UnmarshalJSON, jsonUnmarshalString]
  by_cases hp : ∃ t, s.toList = '0' :: 'x' :: t
  · obtain ⟨t, ht⟩ := hp
    rw [Sscanf0xHex_matched s _ t ht, ne_eq, not_iff_not, scanTail_ok_iff, ht]
    constructor
    · rintro ⟨sp, sign, ds, rest, h, hrest⟩
      exact ⟨sp, sign, ds, rest, by rw [h], hrest⟩
    · rintro ⟨sp, sign, ds, rest, h, hrest⟩
      simp only [List.cons.injEq, true_and] at h
      exact ⟨sp, sign, ds, rest, h, hrest⟩
  · constructor
    · rintro _ ⟨sp, sign, ds, rest, h, _⟩
      exact hp ⟨_, h⟩
    · intro _
      exact Sscanf0xHex_mismatch s recv.toBigInt hp

/-- C5, as stated, fails: `U256.UnmarshalJSON` of "0x-ff" returns no error and stores
`-255`, a negative value, and `U256.MarshalJSON` of that decoded value is "0x-ff", with
a sign character. -/
theorem C5_u256_negative_decoded :
    U256.UnmarshalJSON NewU256 (.str "0x-ff") = (⟨⟨true, 255⟩⟩, none) ∧
      (U256.UnmarshalJSON NewU256 (.str "0x-ff")).1.toBigInt.toInt = -255 ∧
      U256.MarshalJSON (U256.UnmarshalJSON NewU256 (.str "0x-ff")).1 = .ok (.str "0x-ff") := by
  refine ⟨by decide, by decide, rfl⟩

/-- C5, amended: for every input on which `U256.UnmarshalJSON` returns no error and in
which no minus sign follows the "0x" prefix (and the white space after it), the stored
value is non-negative, and `U256.MarshalJSON` of the stored value is a string without
sign character. -/
theorem C5_u256_nonneg_without_minus (recv : U256) (inp : Json)
    (hminus : ∀ s sp rest, inp = .str s → s.toList = '0' :: 'x' :: (sp ++ '-' :: rest) →
      ∃ c ∈ sp, isSpace c = false)
    (hok : (U256.UnmarshalJSON recv inp).2 = none) :
    0 ≤ (U256.UnmarshalJSON recv inp).1.toBigInt.toInt ∧
      ∃ t, U256.MarshalJSON (U256.UnmarshalJSON recv inp).1 = .ok (.str t) ∧
        '-' ∉ t.toList ∧ '+' ∉ t.toList := by
  have key : ∃ v, (U256.UnmarshalJSON recv inp).1 = ⟨⟨false, v⟩⟩ := by
    cases inp with
    | str s =>
      simp only [U256.UnmarshalJSON, jsonUnmarshalString] at hok ⊢
      cases hneg : (Sscanf0xHex s recv.toBigInt).1.neg with
      | true =>
        exfalso
        obtain ⟨sp, rest, hs, hall⟩ := Sscanf0xHex_neg s recv.toBigInt hok hneg
        obtain ⟨c, hc, hns⟩ := hminus s sp rest rfl hs
        rw [hall c hc] at hns
        exact Bool.noConfusion hns
      | false =>
        refine ⟨(Sscanf0xHex s recv.toBigInt).1.abs, ?_⟩
        rw [← hneg]
    | null =>
      exact absurd hok (by simp [U256.UnmarshalJSON, jsonUnmarshalString, Sscanf0xHex, matchRune])
    | bool b => exact absurd hok (by simp [U256.UnmarshalJSON, jsonUnmarshalString])
    | num neg mag => exact absurd hok (by simp [U256.UnmarshalJSON, jsonUnmarshalString])
    | real lit => exact absurd hok (by simp [U256.UnmarshalJSON, jsonUnmarshalString])
    | arr items => exact absurd hok (by simp [U256.UnmarshalJSON, jsonUnmarshalString])
    | obj members => exact absurd hok (by simp [U256.UnmarshalJSON, jsonUnmarshalString])
  obtain ⟨v, hv⟩ := key
  rw [hv]
  refine ⟨by simp [BigInt.toInt], _, U256_MarshalJSON_nonneg v, ?_, ?_⟩
  · intro hmem
    rcases List.mem_cons.mp hmem with h | hmem2
    · exact absurd h (by decide)
    · rcases List.mem_cons.mp hmem2 with h | h
      · exact absurd h (by decide)
      · exact absurd (hexDigits_chars v _ h) (by decide)
  · intro hmem
    rcases List.mem_cons.mp hmem with h | hmem2
    · exact absurd h (by decide)
    · rcases List.mem_cons.mp hmem2 with h | h
      · exact absurd h (by decide)
      · exact absurd (hexDigits_chars v _ h) (by decide)

/-- C5 amended, at the input "0xff": no minus sign, no error, the stored value 255 is
non-negative and encodes without sign. -/
theorem C5_u256_nonneg_without_minus_witness :
    (U256.UnmarshalJSON NewU256 (.str "0xff")).2 = none ∧
      0 ≤ (U256.UnmarshalJSON NewU256 (.str "0xff")).1.toBigInt.toInt ∧
      ∃ t, U256.MarshalJSON (U256.UnmarshalJSON NewU256 (.str "0xff")).1 = .ok (.str t) ∧
        '-' ∉ t.toList ∧ '+' ∉ t.toList :=
  ⟨by decide, C5_u256_nonneg_without_minus NewU256 (.str "0xff")
    (fun s sp rest hs hl => by
      exfalso
      have h : s = "0xff" := by
        injection hs with h
        exact h.symm
      subst h
      have hmem : '-' ∈ "0xff".toList := by
        rw [hl]
        simp
      exact absurd hmem (by decide))
    (by decide)⟩

/-- C6: for every non-negative integer `n`, `U256.MarshalJSON` returns the JSON string
made of "0x" and the lowercase hexadecimal digits of `n` (the digits of `Nat.digits 16 n`,
most significant first, digit `d` written as the `d`-th character of "0123456789abcdef"),
with no leading zero digit, and exactly "0x0" for `n = 0`; so
`L1BlockInfo{Number: 42, Timestamp: 0}` encodes its timestamp field as "0x0". -/
theorem C6_u256_marshal_canonical (n : Nat) :
    U256.MarshalJSON ⟨⟨false, n⟩⟩ =
        .ok (.str (String.mk ('0' :: 'x' ::
          (if n = 0 then ['0'] else (Nat.digits 16 n).reverse.map hexChar)))) ∧
      (List.range 16).map hexChar = "0123456789abcdef".toList ∧
      (n = 0 ∨ ((Nat.digits 16 n).reverse.map hexChar).head? ≠ some '0') ∧
      U256.MarshalJSON ⟨⟨false, 0⟩⟩ = .ok (.str "0x0") ∧
      L1BlockInfo.jsonMarshal ⟨42, ⟨⟨false, 0⟩⟩⟩ =
        .ok (.obj [("number", .num false 42), ("timestamp", .str "0x0")]) := by
  refine ⟨?_, by decide, ?_, rfl, rfl⟩
  · rw [U256_MarshalJSON_nonneg, hexDigits_values]
    unfold hexValues
    by_cases h : n = 0
    · subst h; rfl
    · simp only [if_neg h]
  · by_cases h : n = 0
    · exact Or.inl h
    · right
      have hne : Nat.digits 16 n ≠ [] := Nat.digits_ne_nil_iff_ne_zero.mpr h
      have hlast := Nat.getLast_digit_ne_zero 16 h
      intro hhead
      rw [List.head?_map, List.head?_reverse, List.getLast?_eq_getLast _ hne] at hhead
      simp only [Option.map_some', Option.some.injEq] at hhead
      have hlt : (Nat.digits 16 n).getLast hne < 16 :=
        Nat.digits_lt_base (by norm_num) (List.getLast_mem hne)
      exact hlast ((hexChar_props _ hlt).2.2.2.2.2.2.2.2 hhead)

/-! ## The two header declarations -/

theorem unmarshalUint64_val (cur v : Uint64) :
    unmarshalUint64 cur (.num false v.val) = .ok v := by
  simp [unmarshalUint64, v.isLt]

theorem Header_jsonMarshal_eq (h : Header) :
    h.jsonMarshal = .ok (.obj [("timestamp", .num false h.Timestamp.val),
      ("l1_block", .obj [("number", .num false h.L1Block.Number.val),
        ("timestamp", .str ("0x" ++ h.L1Block.Timestamp.toBigInt.Text16))]),
      ("transactions_root", .obj [("root",
        .arr (h.TransactionsRoot.Root.toList.map (fun x => Json.num false x.val)))])]) := by
  simp only [Header.jsonMarshal, L1BlockInfo.jsonMarshal, NmtRoot.jsonMarshal,
    U256.MarshalJSON, jsonMarshalString, Bytes_MarshalJSON_eq]

theorem jsonMarshalByteSlice_ok (b64 : List Byte → String) (sl : Slice Byte) :
    ∃ root, jsonMarshalByteSlice b64 sl = .ok root := by
  cases sl with
  | nil => exact ⟨_, rfl⟩
  | mk bs => exact ⟨_, rfl⟩

/-- Every JSON document written for an op-service `Header` is refused by the op-node
`Header` decoder: the hex string of `l1_block.timestamp` is not a `big.Int` literal. -/
theorem node_rejects_service (unb64 : String → Option (List Byte)) (h : Header)
    (m0 : Node.Header) :
    ∃ doc, h.jsonMarshal = .ok doc ∧
      ∃ e, Node.Header.jsonUnmarshal unb64 m0 doc = .error e := by
  have k1 : keyMatches "timestamp" "l1_block" = false := by decide
  have k2 : keyMatches "timestamp" "timestamp" = true := by decide
  have k3 : keyMatches "l1_block" "l1_block" = true := by decide
  have k4 : keyMatches "number" "number" = true := by decide
  have k5 : keyMatches "timestamp" "number" = false := by decide
  refine ⟨_, Header_jsonMarshal_eq h, .bigInt "math/big: cannot unmarshal into a *big.Int", ?_⟩
  simp [Node.Header.jsonUnmarshal, decodeMembers, Node.Header.decodeField, k1, k2, k3, k4, k5,
    unmarshalUint64_val, Node.L1BlockInfo.jsonUnmarshal, Node.L1BlockInfo.decodeField,
    BigInt.UnmarshalJSON]

/-- Every JSON document written for an op-node `Header` is refused by the op-service
`Header` decoder: `l1_block.timestamp` is a number (or an empty object), not a string. -/
theorem service_rejects_node (b64 : List Byte → String) (addressable : Bool)
    (m : Node.Header) (h0 : Header) :
    ∃ doc, Node.Header.jsonMarshal b64 addressable m = .ok doc ∧
      ∃ e, Header.jsonUnmarshal h0 doc = .error e := by
  have k1 : keyMatches "l1_block" "timestamp" = false := by decide
  have k3 : keyMatches "l1_block" "l1_block" = true := by decide
  have k4 : keyMatches "number" "number" = true := by decide
  have k5 : keyMatches "timestamp" "number" = false := by decide
  have k2 : keyMatches "timestamp" "timestamp" = true := by decide
  obtain ⟨root, hr⟩ := jsonMarshalByteSlice_ok b64 m.TransactionsRoot
  cases addressable with
  | true =>
    have henc : Node.Header.jsonMarshal b64 true m = .ok (.obj [("l1_block",
        .obj [("number", .num false m.L1Block.Number.val),
          ("timestamp", .num (decide (0 < m.L1Block.Timestamp.abs) && m.L1Block.Timestamp.neg)
            m.L1Block.Timestamp.abs)]),
        ("timestamp", .num false m.Timestamp.val), ("transactions_root", root)]) := by
      simp only [Node.Header.jsonMarshal, Node.L1BlockInfo.jsonMarshal,
        BigInt.jsonMarshalField, BigInt.MarshalJSON, hr, if_true]
    refine ⟨_, henc, .unmarshalType "number" "string", ?_⟩
    simp [Header.jsonUnmarshal, decodeMembers, Header.decodeField, k1, k2, k3, k4, k5,
      unmarshalUint64_val, L1BlockInfo.jsonUnmarshal, L1BlockInfo.decodeField,
      U256.UnmarshalJSON, jsonUnmarshalString, Json.kind]
  | false =>
    have henc : Node.Header.jsonMarshal b64 false m = .ok (.obj [("l1_block",
        .obj [("number", .num false m.L1Block.Number.val), ("timestamp", .obj [])]),
        ("timestamp", .num false m.Timestamp.val), ("transactions_root", root)]) := by
      simp only [Node.Header.jsonMarshal, Node.L1BlockInfo.jsonMarshal,
        BigInt.jsonMarshalField, hr]
      rfl
    refine ⟨_, henc, .unmarshalType "object" "string", ?_⟩
    simp [Header.jsonUnmarshal, decodeMembers, Header.decodeField, k1, k2, k3, k4, k5,
      unmarshalUint64_val, L1BlockInfo.jsonUnmarshal, L1BlockInfo.decodeField,
      U256.UnmarshalJSON, jsonUnmarshalString, Json.kind]

/-! ## Claims on the commitments -/

theorem encodeUint256_fits (overflow : Int → Option (Fin (2 ^ 256))) (v : Int)
    (h : 0 ≤ v ∧ v < 2 ^ 256) :
    ∃ w : Fin (2 ^ 256), (w.val : Int) = v ∧ encodeUint256 overflow v = some w := by
  refine ⟨⟨v.toNat, by omega⟩, by simp only []; omega, ?_⟩
  exact dif_pos h

/-- C8: for every op-service `Header` `h`, `Header.Commit` is the finalised builder with
tag "BLOCK" and exactly three fields, in this order: the uint64 field "timestamp" with
`h.Timestamp`, the commitment field "l1_block" with `h.L1Block.Commit()`, the commitment
field "transactions_root" with `h.TransactionsRoot.Commit()` (and it returns exactly when
`h.L1Block.Commit()` does); the field names are, in order, the keys of the struct fields
in declaration order, as the JSON encoding of `h` lists them. -/
theorem C8_header_commit_fields {C : Type} (overflow : Int → Option (Fin (2 ^ 256)))
    (Finalize : RawCommitmentBuilder C → C) (h : Header) :
    Header.Commit overflow Finalize h =
        (h.L1Block.Commit overflow Finalize).map (fun l1 =>
          Finalize ⟨"BLOCK", [.uint64 "timestamp" h.Timestamp,
            .commitment "l1_block" l1,
            .commitment "transactions_root" (h.TransactionsRoot.Commit Finalize)]⟩) ∧
      ∃ members, h.jsonMarshal = .ok (.obj members) ∧
        ∀ l1 : C, members.map Prod.fst =
          ([.uint64 "timestamp" h.Timestamp,
            .commitment "l1_block" l1,
            .commitment "transactions_root" (h.TransactionsRoot.Commit Finalize)] :
              List (BuilderField C)).map BuilderField.name := by
  exact ⟨rfl, _, Header_jsonMarshal_eq h, fun _ => rfl⟩

/-- C9: for every op-service `L1BlockInfo` `x`, `x.Commit()` is the finalised builder
with tag "L1BLOCK", the uint64 field "number" with `x.Number`, then the uint256 field
"timestamp" with the 32-byte encoding of `x.Timestamp` (the value itself when it is in
`0 ≤ v < 2^256`); for every `NmtRoot` `r`, `r.Commit()` is the finalised builder with tag
"NMTROOT" and the single variable-size field "root" with the bytes of `r.Root`. -/
theorem C9_leaf_commit_fields {C : Type} (overflow : Int → Option (Fin (2 ^ 256)))
    (Finalize : RawCommitmentBuilder C → C) (x : L1BlockInfo) (r : NmtRoot) :
    L1BlockInfo.Commit overflow Finalize x =
        (encodeUint256 overflow x.Timestamp.toBigInt.toInt).map (fun w =>
          Finalize ⟨"L1BLOCK", [.uint64 "number" x.Number, .uint256 "timestamp" w]⟩) ∧
      (0 ≤ x.Timestamp.toBigInt.toInt ∧ x.Timestamp.toBigInt.toInt < 2 ^ 256 →
        ∃ w : Fin (2 ^ 256), (w.val : Int) = x.Timestamp.toBigInt.toInt ∧
          L1BlockInfo.Commit overflow Finalize x =
            some (Finalize ⟨"L1BLOCK",
              [.uint64 "number" x.Number, .uint256 "timestamp" w]⟩)) ∧
      NmtRoot.Commit Finalize r = Finalize ⟨"NMTROOT", [.varSize "root" r.Root.toList]⟩ := by
  have h1 : L1BlockInfo.Commit overflow Finalize x =
      (encodeUint256 overflow x.Timestamp.toBigInt.toInt).map (fun w =>
        Finalize ⟨"L1BLOCK", [.uint64 "number" x.Number, .uint256 "timestamp" w]⟩) := by
    unfold L1BlockInfo.Commit RawCommitmentBuilder.Uint256Field
    cases encodeUint256 overflow x.Timestamp.toBigInt.toInt <;> rfl
  refine ⟨h1, ?_, rfl⟩
  intro hfit
  obtain ⟨w, hw, he⟩ := encodeUint256_fits overflow _ hfit
  exact ⟨w, hw, by rw [h1, he]; rfl⟩

/-- C9 at `L1BlockInfo{Number: 42, Timestamp: 255}` with the failing choice for wide
values: the commitment is returned, with the timestamp field 255. -/
theorem C9_leaf_commit_fields_witness :
    L1BlockInfo.Commit overflowFails CommitTree.Finalize ⟨42, ⟨⟨false, 255⟩⟩⟩ =
      some (CommitTree.Finalize ⟨"L1BLOCK",
        [.uint64 "number" 42, .uint256 "timestamp" 255]⟩) := by
  obtain ⟨w, hw, he⟩ := (C9_leaf_commit_fields overflowFails CommitTree.Finalize
    ⟨42, ⟨⟨false, 255⟩⟩⟩ ⟨.nil⟩).2.1 (by simp [BigInt.toInt])
  have hw2 : w = 255 := by
    apply Fin.ext
    have : (w.val : Int) = 255 := hw
    have h255 : ((255 : Fin (2 ^ 256)).val) = 255 := rfl
    omega
  rw [he, hw2]

/-! ## Claim on the two header declarations -/

/-- C10 fails on the code.  The zero op-service `Header` is encoded as
`{"timestamp":0,"l1_block":{"number":0,"timestamp":"0x0"},"transactions_root":{"root":[]}}`,
which the op-node `Header` decoder refuses; the zero op-node `Header` is encoded (by
pointer) as `{"l1_block":{"number":0,"timestamp":0},"timestamp":0,"transactions_root":null}`,
which the op-service decoder refuses.  More generally no document written for one
declaration is accepted by the decoder of the other, whatever the header, the receiver
and the base64 functions. -/
theorem C10_header_wire_mismatch (unb64 : String → Option (List Byte))
    (b64 : List Byte → String) :
    Header.jsonMarshal ⟨0, ⟨0, NewU256⟩, ⟨.nil⟩⟩ =
        .ok (.obj [("timestamp", .num false 0),
          ("l1_block", .obj [("number", .num false 0), ("timestamp", .str "0x0")]),
          ("transactions_root", .obj [("root", .arr [])])]) ∧
      Node.Header.jsonUnmarshal unb64 ⟨⟨0, ⟨false, 0⟩⟩, 0, .nil⟩
          (.obj [("timestamp", .num false 0),
            ("l1_block", .obj [("number", .num false 0), ("timestamp", .str "0x0")]),
            ("transactions_root", .obj [("root", .arr [])])]) =
        .error (.bigInt "math/big: cannot unmarshal into a *big.Int") ∧
      Node.Header.jsonMarshal b64 true ⟨⟨0, ⟨false, 0⟩⟩, 0, .nil⟩ =
        .ok (.obj [("l1_block", .obj [("number", .num false 0), ("timestamp", .num false 0)]),
          ("timestamp", .num false 0), ("transactions_root", .null)]) ∧
      Header.jsonUnmarshal ⟨0, ⟨0, NewU256⟩, ⟨.nil⟩⟩
          (.obj [("l1_block", .obj [("number", .num false 0), ("timestamp", .num false 0)]),
            ("timestamp", .num false 0), ("transactions_root", .null)]) =
        .error (.unmarshalType "number" "string") ∧
      (∀ (h : Header) (m0 : Node.Header), ∃ doc, h.jsonMarshal = .ok doc ∧
        ∃ e, Node.Header.jsonUnmarshal unb64 m0 doc = .error e) ∧
      (∀ (addressable : Bool) (m : Node.Header) (h0 : Header),
        ∃ doc, Node.Header.jsonMarshal b64 addressable m = .ok doc ∧
          ∃ e, Header.jsonUnmarshal h0 doc = .error e) :=
  ⟨rfl, rfl, rfl, rfl, fun h m0 => node_rejects_service unb64 h m0,
    fun a m h0 => service_rejects_node b64 a m h0⟩

/-! ## Claims on the `Bytes` codec -/

/-- C1: for every byte sequence `b` (nil and empty included) and every previous receiver
content, `Bytes.MarshalJSON b` succeeds, and `Bytes.UnmarshalJSON` applied to its output
returns no error and stores a byte sequence equal to `b` (for a nil `b` the empty
non-nil slice). -/
theorem C1_bytes_roundtrip (b recv : Bytes) :
    ∃ j, Bytes.MarshalJSON b = .ok j ∧
      Bytes.UnmarshalJSON recv j = (.mk b.toList, none) ∧
      (Bytes.UnmarshalJSON recv j).1.toList = b.toList := by
  refine ⟨_, Bytes_MarshalJSON_eq b, ?_⟩
  have hel : unmarshalIntElems (b.toList.map (fun x => Json.num false x.val)) =
      .ok (b.toList.map (fun x => (x.val : Int))) := by
    have h := unmarshalIntElems_lits (b.toList.map (fun x => (false, x.val))) (by
      intro l hl
      obtain ⟨x, _, rfl⟩ := List.mem_map.mp hl
      have := x.isLt
      simp only [litValue]
      constructor <;> norm_num <;> omega)
    simpa [List.map_map, Function.comp_def, litValue] using h
  have hloop := unmarshalLoop_fill (b.toList.map (fun x => (x.val : Int))) [] (by
    intro y hy
    obtain ⟨x, _, rfl⟩ := List.mem_map.mp hy
    have := x.isLt
    omega)
  simp only [List.length_nil, List.nil_append, List.map_map] at hloop
  have hid : (b.toList.map (byteOfInt ∘ fun x => (x.val : Int))) = b.toList := by
    conv_rhs => rw [← List.map_id b.toList]
    apply List.map_congr_left
    intro x _
    simp [byteOfInt_val]
  rw [hid] at hloop
  have hres : Bytes.UnmarshalJSON recv (.arr (b.toList.map (fun x => Json.num false x.val))) =
      (.mk b.toList, none) := by
    rw [Bytes_UnmarshalJSON_arr recv _ _ hel, hloop]
  exact ⟨hres, by rw [hres]; rfl⟩

/-- C3: for every JSON array of integer literals, `Bytes.UnmarshalJSON` returns an error
if and only if some element is negative or greater than 255; when it returns no error
the stored bytes are exactly the elements in order (nothing is clamped). -/
theorem C3_bytes_range_error (recv : Bytes) (lits : List (Bool × Nat)) :
    ((Bytes.UnmarshalJSON recv (.arr (lits.map (fun l => Json.num l.1 l.2)))).2 ≠ none ↔
        ∃ l ∈ lits, litValue l.1 l.2 < 0 ∨ 255 < litValue l.1 l.2) ∧
      ((Bytes.UnmarshalJSON recv (.arr (lits.map (fun l => Json.num l.1 l.2)))).2 = none →
        ((Bytes.UnmarshalJSON recv (.arr (lits.map (fun l => Json.num l.1 l.2)))).1.toList.map
          (fun x => (x.val : Int))) = lits.map (fun l => litValue l.1 l.2)) := by
  by_cases hall : ∀ l ∈ lits, 0 ≤ litValue l.1 l.2 ∧ litValue l.1 l.2 ≤ 255
  · -- every element is a byte value: the call succeeds
    have hel := unmarshalIntElems_lits lits (by
      intro l hl
      have := hall l hl
      constructor <;> norm_num <;> omega)
    have hloop := unmarshalLoop_fill (lits.map (fun l => litValue l.1 l.2)) [] (by
      intro y hy
      obtain ⟨l, hl, rfl⟩ := List.mem_map.mp hy
      exact hall l hl)
    simp only [List.length_nil, List.nil_append] at hloop
    have hres : Bytes.UnmarshalJSON recv (.arr (lits.map (fun l => Json.num l.1 l.2))) =
        (.mk ((lits.map (fun l => litValue l.1 l.2)).map byteOfInt), none) := by
      rw [Bytes_UnmarshalJSON_arr recv _ _ hel, hloop]
    rw [hres]
    refine ⟨⟨fun h => absurd rfl h, ?_⟩, fun _ => ?_⟩
    · rintro ⟨l, hl, hr⟩
      have := hall l hl
      omega
    · simp only [Slice.toList, List.map_map]
      apply List.map_congr_left
      intro l hl
      have := hall l hl
      simp only [Function.comp_apply]
      exact byteOfInt_toInt _ this.1 this.2
  · -- some element is out of range: the call fails
    have hex : ∃ l ∈ lits, litValue l.1 l.2 < 0 ∨ 255 < litValue l.1 l.2 := by
      by_contra hne
      apply hall
      intro l hl
      by_contra hc
      exact hne ⟨l, hl, by omega⟩
    have herr : (Bytes.UnmarshalJSON recv (.arr (lits.map (fun l => Json.num l.1 l.2)))).2 ≠
        none := by
      by_cases h64 : ∀ l ∈ lits,
          -(2 : Int) ^ 63 ≤ litValue l.1 l.2 ∧ litValue l.1 l.2 < (2 : Int) ^ 63
      · have hel := unmarshalIntElems_lits lits h64
        have hl2 := unmarshalLoop_error (lits.map (fun l => litValue l.1 l.2)) 0
          (List.replicate (lits.map (fun l => litValue l.1 l.2)).length 0) (by
            obtain ⟨l, hl, hr⟩ := hex
            exact ⟨_, List.mem_map.mpr ⟨l, hl, rfl⟩, hr⟩)
        rw [Bytes_UnmarshalJSON_arr recv _ _ hel]
        exact hl2
      · have hex64 : ∃ l ∈ lits, ¬ (-(2 : Int) ^ 63 ≤ litValue l.1 l.2 ∧
            litValue l.1 l.2 < (2 : Int) ^ 63) := by
          by_contra hne
          apply h64
          intro l hl
          by_contra hc
          exact hne ⟨l, hl, hc⟩
        obtain ⟨e, he⟩ := unmarshalIntElems_lits_error lits hex64
        simp [Bytes.UnmarshalJSON, jsonUnmarshalInts, he]
    exact ⟨⟨fun _ => hex, fun _ => herr⟩, fun h => absurd h herr⟩

/-- C3 at the array `[0, 255, 16]`: no error, and the stored values are `0, 255, 16`. -/
theorem C3_bytes_range_error_witness :
    (Bytes.UnmarshalJSON .nil (.arr [.num false 0, .num false 255, .num false 16])).2 = none ∧
      ((Bytes.UnmarshalJSON .nil
        (.arr [.num false 0, .num false 255, .num false 16])).1.toList.map
          (fun x => (x.val : Int))) = [0, 255, 16] :=
  ⟨by decide,
    (C3_bytes_range_error .nil [(false, 0), (false, 255), (false, 16)]).2 (by decide)⟩

/-- C7: for every byte sequence `b` (nil and empty included) `Bytes.MarshalJSON` succeeds
and returns the JSON array of exactly `len(b)` integer literals whose `i`-th element is
the unsigned value of `b[i]`; so never a string or `null`: `Bytes{0,255,16}` gives
`[0,255,16]`, the empty and the nil sequence give `[]`. -/
theorem C7_bytes_marshal_array (b : Bytes) :
    Bytes.MarshalJSON b = .ok (.arr (b.toList.map (fun x => Json.num false x.val))) ∧
      (b.toList.map (fun x => Json.num false x.val)).length = b.len ∧
      Bytes.MarshalJSON (.mk [0, 255, 16]) =
        .ok (.arr [.num false 0, .num false 255, .num false 16]) ∧
      Bytes.MarshalJSON (.mk []) = .ok (.arr []) ∧
      Bytes.MarshalJSON .nil = .ok (.arr []) :=
  ⟨Bytes_MarshalJSON_eq b, by simp [Slice.len], rfl, rfl, rfl⟩

/-! ## Further claims on the `U256` codec -/

/-- C11: decoding is lenient about leading zeros and encoding is strict: for every
non-negative integer `n`, every `k` and every previous receiver content,
`U256.UnmarshalJSON` of "0x", then `k` zero digits, then the hex digits of `n`, returns
no error and stores `n`; `U256.MarshalJSON` of the stored value is "0x" and digits whose
first is not `0`, or exactly "0x0". -/
theorem C11_u256_lenient_decode_strict_encode (recv : U256) (n k : Nat) :
    U256.UnmarshalJSON recv
        (.str (String.mk ('0' :: 'x' ::
          (List.replicate k '0' ++ (hexValues n).map hexChar)))) = (⟨⟨false, n⟩⟩, none) ∧
      ∃ ds, U256.MarshalJSON (U256.UnmarshalJSON recv
          (.str (String.mk ('0' :: 'x' ::
            (List.replicate k '0' ++ (hexValues n).map hexChar))))).1 =
          .ok (.str (String.mk ('0' :: 'x' :: ds))) ∧
        (ds = ['0'] ∨ ds.head? ≠ some '0') := by
  have h := U256_decode_leading_zeros recv n k
  rw [hexDigits_values] at h
  refine ⟨h, hexDigits n, ?_, hexDigits_no_leading_zero n⟩
  rw [h]
  exact U256_MarshalJSON_nonneg n

/-- C18: the codec enforces no 256-bit bound: for every `n ≥ 2^256`, `U256.MarshalJSON`
writes "0x" and the hex digits of `n`, and `U256.UnmarshalJSON` of that string returns no
error and stores `n` itself, not a truncation. -/
theorem C18_u256_no_width_bound (recv : U256) (n : Nat) (hn : 2 ^ 256 ≤ n) :
    U256.MarshalJSON ⟨⟨false, n⟩⟩ =
        .ok (.str (String.mk ('0' :: 'x' :: (Nat.digits 16 n).reverse.map hexChar))) ∧
      U256.UnmarshalJSON recv
          (.str (String.mk ('0' :: 'x' :: (Nat.digits 16 n).reverse.map hexChar))) =
        (⟨⟨false, n⟩⟩, none) ∧
      (U256.UnmarshalJSON recv
          (.str (String.mk ('0' :: 'x' ::
            (Nat.digits 16 n).reverse.map hexChar)))).1.toBigInt.toInt = (n : Int) := by
  have hpos : 0 < n := lt_of_lt_of_le (by norm_num) hn
  have hd := hexDigits_eq n hpos
  have hm := U256_MarshalJSON_nonneg n
  have hr := U256_roundtrip_nonneg recv n
  rw [hd] at hm hr
  refine ⟨hm, hr, ?_⟩
  rw [hr]
  rfl

/-- C18 at `n = 2^256`, the first value past the declared width. -/
theorem C18_u256_no_width_bound_witness :
    (2 : Nat) ^ 256 ≤ 2 ^ 256 ∧
      U256.UnmarshalJSON NewU256
          (.str (String.mk ('0' :: 'x' :: (Nat.digits 16 (2 ^ 256)).reverse.map hexChar))) =
        (⟨⟨false, 2 ^ 256⟩⟩, none) :=
  ⟨le_refl _, (C18_u256_no_width_bound NewU256 (2 ^ 256) (le_refl _)).2.1⟩

/-! ## Further claims on the `Bytes` codec -/

theorem unmarshalIntElems_bad (items : List Json)
    (h : ∃ it ∈ items, (∀ neg mag, it ≠ Json.num neg mag) ∧ it ≠ Json.null) :
    ∃ e, unmarshalIntElems items = .error e := by
  induction items with
  | nil => simp at h
  | cons j rest ih =>
    cases hj : unmarshalInt 0 j with
    | error e => exact ⟨e, by simp only [unmarshalIntElems, hj]⟩
    | ok v =>
      have hrest : ∃ it ∈ rest, (∀ neg mag, it ≠ Json.num neg mag) ∧ it ≠ Json.null := by
        obtain ⟨it, hit, hnum, hnull⟩ := h
        rcases List.mem_cons.mp hit with rfl | hit2
        · exfalso
          cases it with
          | null => exact hnull rfl
          | num neg mag => exact hnum neg mag rfl
          | bool b => simp [unmarshalInt] at hj
          | real lit => simp [unmarshalInt] at hj
          | str t => simp [unmarshalInt] at hj
          | arr items => simp [unmarshalInt] at hj
          | obj members => simp [unmarshalInt] at hj
        · exact ⟨it, hit2, hnum, hnull⟩
      obtain ⟨e, he⟩ := ih hrest
      exact ⟨e, by simp only [unmarshalIntElems, hj, he]⟩

theorem Bytes_UnmarshalJSON_parse_error (recv : Bytes) (j : Json) (e : Error)
    (h : jsonUnmarshalInts j = .error e) : Bytes.UnmarshalJSON recv j = (recv, some e) := by
  simp only [Bytes.UnmarshalJSON, h]

theorem unmarshalLoop_stop (pre post : List Int) (bad : Int) (done : List Byte)
    (hpre : ∀ x ∈ pre, 0 ≤ x ∧ x ≤ 255) (hbad : bad < 0 ∨ 255 < bad) :
    Bytes.unmarshalLoop (pre ++ bad :: post) done.length
        (done ++ List.replicate (pre ++ bad :: post).length 0) =
      (done ++ (pre.map byteOfInt ++ List.replicate (post.length + 1) 0),
        some (.byteOutOfRange bad)) := by
  induction pre generalizing done with
  | nil =>
    simp only [List.nil_append, Bytes.unmarshalLoop, if_pos hbad, List.length_cons,
      List.map_nil]
  | cons x rest ih =>
    have hx := hpre x (List.mem_cons_self x rest)
    have hrest : ∀ y ∈ rest, 0 ≤ y ∧ y ≤ 255 := fun y hy => hpre y (List.mem_cons_of_mem x hy)
    have hcond : ¬ (x < 0 ∨ 255 < x) := by omega
    rw [List.cons_append, List.length_cons, List.replicate_succ, Bytes.unmarshalLoop,
      if_neg hcond, set_length_append]
    have h2 := ih (done ++ [byteOfInt x]) hrest
    rw [List.length_append, List.length_singleton, List.append_assoc, List.singleton_append,
      List.append_assoc, List.singleton_append] at h2
    rw [h2]
    rfl

/-- C12, as stated, fails: `Bytes.UnmarshalJSON` accepts the literal `null` (it stores the
empty sequence over the previous content) and an array with a `null` element (the
element is stored as 0). -/
theorem C12_bytes_null_accepted :
    Bytes.UnmarshalJSON (.mk [7]) .null = (.mk [], none) ∧
      Bytes.UnmarshalJSON (.mk [7]) (.arr [.null]) = (.mk [0], none) ∧
      Bytes.UnmarshalJSON (.mk [7]) (.arr [.num false 1, .null, .num false 3]) =
        (.mk [1, 0, 3], none) := by
  decide

/-- C12, amended: `Bytes.UnmarshalJSON` returns an error, and leaves the receiver as it
was, for every JSON value that is a string, a number, a boolean or an object, and for
every array with an element that is neither an integer literal nor `null` (a string,
`1.5`, a boolean, an array, an object). -/
theorem C12_bytes_format_error (recv : Bytes) (j : Json)
    (h : (∃ t, j = .str t) ∨ (∃ neg mag, j = .num neg mag) ∨ (∃ lit, j = .real lit) ∨
      (∃ b, j = .bool b) ∨ (∃ members, j = .obj members) ∨
      ∃ items, j = .arr items ∧
        ∃ it ∈ items, (∀ neg mag, it ≠ Json.num neg mag) ∧ it ≠ Json.null) :
    (Bytes.UnmarshalJSON recv j).2 ≠ none ∧ (Bytes.UnmarshalJSON recv j).1 = recv := by
  have key : ∃ e, jsonUnmarshalInts j = .error e := by
    rcases h with ⟨t, rfl⟩ | ⟨neg, mag, rfl⟩ | ⟨lit, rfl⟩ | ⟨b, rfl⟩ | ⟨members, rfl⟩ |
      ⟨items, rfl, hbad⟩
    · exact ⟨_, rfl⟩
    · exact ⟨_, rfl⟩
    · exact ⟨_, rfl⟩
    · exact ⟨_, rfl⟩
    · exact ⟨_, rfl⟩
    · obtain ⟨e, he⟩ := unmarshalIntElems_bad items hbad
      exact ⟨e, by simp only [jsonUnmarshalInts, he]⟩
  obtain ⟨e, he⟩ := key
  rw [Bytes_UnmarshalJSON_parse_error recv j e he]
  exact ⟨by simp, rfl⟩

/-- C12 amended, at the array `[1, 1.5]` and the receiver `{7}`: an error, receiver kept. -/
theorem C12_bytes_format_error_witness :
    (Bytes.UnmarshalJSON (.mk [7]) (.arr [.num false 1, .real "1.5"])).2 ≠ none ∧
      (Bytes.UnmarshalJSON (.mk [7]) (.arr [.num false 1, .real "1.5"])).1 = .mk [7] :=
  C12_bytes_format_error (.mk [7]) (.arr [.num false 1, .real "1.5"])
    (Or.inr (Or.inr (Or.inr (Or.inr (Or.inr ⟨_, rfl, .real "1.5", by simp,
      fun _ _ h => Json.noConfusion h, fun h => Json.noConfusion h⟩)))))

/-- C17: `Bytes.UnmarshalJSON` is not atomic on a range error.  For every JSON array of
`n` integer literals (each fitting a Go `int`) whose first element outside `0..255` is
at index `k` (after `pre`, before `post`), the call returns the range error and leaves
the receiver, whatever it held, as a sequence of length `n`: the `k` values before the
bad element, then `n - k` zeros.  When `json.Unmarshal` itself fails, the receiver is
left unchanged. -/
theorem C17_bytes_unmarshal_not_atomic (recv : Bytes) (pre post : List (Bool × Nat))
    (bad : Bool × Nat)
    (hpre : ∀ l ∈ pre, 0 ≤ litValue l.1 l.2 ∧ litValue l.1 l.2 ≤ 255)
    (hbad : litValue bad.1 bad.2 < 0 ∨ 255 < litValue bad.1 bad.2)
    (hint : ∀ l ∈ pre ++ bad :: post,
      -(2 : Int) ^ 63 ≤ litValue l.1 l.2 ∧ litValue l.1 l.2 < (2 : Int) ^ 63) :
    Bytes.UnmarshalJSON recv (.arr ((pre ++ bad :: post).map (fun l => Json.num l.1 l.2))) =
        (.mk (pre.map (fun l => byteOfInt (litValue l.1 l.2)) ++
            List.replicate (post.length + 1) 0),
          some (.byteOutOfRange (litValue bad.1 bad.2))) ∧
      (pre.map (fun l => byteOfInt (litValue l.1 l.2))).map (fun x => (x.val : Int)) =
        pre.map (fun l => litValue l.1 l.2) ∧
      (pre.map (fun l => byteOfInt (litValue l.1 l.2)) ++
          List.replicate (post.length + 1) (0 : Byte)).length = (pre ++ bad :: post).length ∧
      ∀ (j : Json) (e : Error), jsonUnmarshalInts j = .error e →
        Bytes.UnmarshalJSON recv j = (recv, some e) := by
  refine ⟨?_, ?_, ?_, fun j e he => Bytes_UnmarshalJSON_parse_error recv j e he⟩
  · have hel := unmarshalIntElems_lits (pre ++ bad :: post) hint
    rw [Bytes_UnmarshalJSON_arr recv _ _ hel]
    have hloop := unmarshalLoop_stop (pre.map (fun l => litValue l.1 l.2))
      (post.map (fun l => litValue l.1 l.2)) (litValue bad.1 bad.2) [] (by
        intro y hy
        obtain ⟨l, hl, rfl⟩ := List.mem_map.mp hy
        exact hpre l hl) hbad
    simp only [List.length_nil, List.nil_append, List.map_map, List.length_map] at hloop
    simp only [List.map_append, List.map_cons]
    rw [hloop]
    rfl
  · rw [List.map_map]
    apply List.map_congr_left
    intro l hl
    have := hpre l hl
    simp only [Function.comp_apply]
    exact byteOfInt_toInt _ this.1 this.2
  · simp only [List.length_append, List.length_map, List.length_replicate, List.length_cons]

/-- C17 at the array `[1, 256, 3]` and the receiver `{9, 9}`: the range error of 256, and
the receiver left as `{1, 0, 0}`. -/
theorem C17_bytes_unmarshal_not_atomic_witness :
    Bytes.UnmarshalJSON (.mk [9, 9])
        (.arr [.num false 1, .num false 256, .num false 3]) =
      (.mk [1, 0, 0], some (.byteOutOfRange 256)) :=
  (C17_bytes_unmarshal_not_atomic (.mk [9, 9]) [(false, 1)] [(false, 3)] (false, 256)
    (by decide) (by decide) (by decide)).1

/-! ## Claims on the JSON form of the op-service `Header` -/

theorem Bytes_decode_encoded (recv b : Bytes) :
    Bytes.UnmarshalJSON recv (.arr (b.toList.map (fun x => Json.num false x.val))) =
      (.mk b.toList, none) := by
  have hel : unmarshalIntElems (b.toList.map (fun x => Json.num false x.val)) =
      .ok (b.toList.map (fun x => (x.val : Int))) := by
    have h := unmarshalIntElems_lits (b.toList.map (fun x => (false, x.val))) (by
      intro l hl
      obtain ⟨x, _, rfl⟩ := List.mem_map.mp hl
      have := x.isLt
      simp only [litValue]
      constructor <;> norm_num <;> omega)
    simpa [List.map_map, Function.comp_def, litValue] using h
  have hloop := unmarshalLoop_fill (b.toList.map (fun x => (x.val : Int))) [] (by
    intro y hy
    obtain ⟨x, _, rfl⟩ := List.mem_map.mp hy
    have := x.isLt
    omega)
  simp only [List.length_nil, List.nil_append, List.map_map] at hloop
  have hid : (b.toList.map (byteOfInt ∘ fun x => (x.val : Int))) = b.toList := by
    conv_rhs => rw [← List.map_id b.toList]
    apply List.map_congr_left
    intro x _
    simp [byteOfInt_val]
  rw [hid] at hloop
  rw [Bytes_UnmarshalJSON_arr recv _ _ hel, hloop]

theorem hexText_of_nonneg (x : BigInt) (h : 0 ≤ x.toInt) :
    "0x" ++ x.Text16 = String.mk ('0' :: 'x' :: hexDigits x.abs) := by
  unfold BigInt.Text16
  by_cases h0 : x.abs = 0
  · rw [if_pos h0, h0]
    rfl
  · rw [if_neg h0]
    have hneg : x.neg = false := by
      cases hn : x.neg with
      | false => rfl
      | true =>
        exfalso
        simp only [BigInt.toInt, hn, if_true] at h
        omega
    rw [hneg]
    apply String.ext
    simp

theorem Text16_toList (x : BigInt) :
    x.Text16.toList =
      (if x.toInt < 0 then ['-'] else []) ++ (hexValues x.abs).map hexChar := by
  rw [← hexDigits_values]
  unfold BigInt.Text16 BigInt.toInt
  by_cases h0 : x.abs = 0
  · rw [if_pos h0, h0]
    cases x.neg <;> rfl
  · rw [if_neg h0]
    have hpos : 0 < x.abs := Nat.pos_of_ne_zero h0
    cases hn : x.neg with
    | true =>
      have hlt : -(x.abs : Int) < 0 := by omega
      simp [hlt]
    | false =>
      have hge : ¬ ((x.abs : Int) < 0) := by omega
      simp [hge]

/-- C14, as stated, fails: the header with `L1Block.Timestamp = -255` (a value the decoder
yields for "0x-ff") encodes its "timestamp" as "0x-ff", where a minus sign, not a hex
digit, follows the "0x" prefix. -/
theorem C14_header_negative_timestamp :
    Header.jsonMarshal ⟨0, ⟨0, ⟨⟨true, 255⟩⟩⟩, ⟨.nil⟩⟩ =
        .ok (.obj [("timestamp", .num false 0),
          ("l1_block", .obj [("number", .num false 0), ("timestamp", .str "0x-ff")]),
          ("transactions_root", .obj [("root", .arr [])])]) ∧
      "0x-ff".toList.drop 2 = ['-', 'f', 'f'] ∧
      '-' ∉ "0123456789abcdefABCDEF".toList ∧
      (U256.UnmarshalJSON NewU256 (.str "0x-ff")).1 = ⟨⟨true, 255⟩⟩ :=
  ⟨rfl, by decide, by decide, by decide⟩

/-- C14, amended: for every op-service `Header` `h` the JSON encoding is an object with
exactly the keys "timestamp", "l1_block", "transactions_root": "timestamp" is the decimal
number `h.Timestamp`; "l1_block" is an object with exactly the keys "number" (the decimal
number `h.L1Block.Number`) and "timestamp", a string made of "0x", a minus sign if
`h.L1Block.Timestamp` is negative, and the lowercase hex digits of its magnitude (at
least one digit); "transactions_root" is an object with exactly the key "root", an array
of integer literals, one per byte of the root, each in `0..255`.  The hex digits are
those of `Nat.digits 16`, most significant first ("0" for zero), digit `d` written as the
`d`-th character of "0123456789abcdef". -/
theorem C14_header_json_shape (h : Header) :
    ∃ t, h.jsonMarshal = .ok (.obj [("timestamp", .num false h.Timestamp.val),
        ("l1_block", .obj [("number", .num false h.L1Block.Number.val),
          ("timestamp", .str t)]),
        ("transactions_root", .obj [("root",
          .arr (h.TransactionsRoot.Root.toList.map (fun x => Json.num false x.val)))])]) ∧
      t.toList = '0' :: 'x' ::
        ((if h.L1Block.Timestamp.toBigInt.toInt < 0 then ['-'] else []) ++
          (hexValues h.L1Block.Timestamp.abs).map hexChar) ∧
      (hexValues h.L1Block.Timestamp.abs).map hexChar ≠ [] ∧
      (∀ c ∈ (hexValues h.L1Block.Timestamp.abs).map hexChar,
        c ∈ "0123456789abcdef".toList) ∧
      (hexValues h.L1Block.Timestamp.abs).foldl (fun a d => a * 16 + d) 0 =
        h.L1Block.Timestamp.abs ∧
      hexValues h.L1Block.Timestamp.abs =
        (if h.L1Block.Timestamp.abs = 0 then [0]
          else (Nat.digits 16 h.L1Block.Timestamp.abs).reverse) ∧
      (List.range 16).map hexChar = "0123456789abcdef".toList ∧
      (h.TransactionsRoot.Root.toList.map (fun x => Json.num false x.val)).length =
        h.TransactionsRoot.Root.len ∧
      ∀ x ∈ h.TransactionsRoot.Root.toList, x.val ≤ 255 := by
  refine ⟨_, Header_jsonMarshal_eq h, ?_, ?_, ?_, hexValues_foldl _, rfl, by decide,
    by simp [Slice.len], ?_⟩
  · have ht := Text16_toList h.L1Block.Timestamp.toBigInt
    simp only [String.toList] at ht ⊢
    rw [String.data_append, ht]
    rfl
  · intro hnil
    exact hexValues_ne_nil _ (List.map_eq_nil_iff.mp hnil)
  · intro c hc
    rw [← hexDigits_values] at hc
    exact hexDigits_chars _ c hc
  · intro x _
    have := x.isLt
    omega

/-- C19: the op-service `Header` round-trips through JSON: for every `h` whose
`L1Block.Timestamp` is non-negative, the encoding of `h` decodes without error, into a
fresh `Header` as into any other, to a header with the same `Timestamp`, the same
`L1Block.Number`, the same `L1Block.Timestamp` and the same bytes in
`TransactionsRoot.Root`; the uint64 fields come back exactly, whatever their size. -/
theorem C19_header_json_roundtrip (h h0 : Header)
    (hts : 0 ≤ h.L1Block.Timestamp.toBigInt.toInt) :
    ∃ doc h1, h.jsonMarshal = .ok doc ∧ Header.jsonUnmarshal h0 doc = .ok h1 ∧
      h1.Timestamp = h.Timestamp ∧ h1.L1Block.Number = h.L1Block.Number ∧
      h1.L1Block.Timestamp.toBigInt.toInt = h.L1Block.Timestamp.toBigInt.toInt ∧
      h1.TransactionsRoot.Root.toList = h.TransactionsRoot.Root.toList := by
  have k1 : keyMatches "timestamp" "timestamp" = true := by decide
  have k2 : keyMatches "l1_block" "timestamp" = false := by decide
  have k3 : keyMatches "l1_block" "l1_block" = true := by decide
  have k4 : keyMatches "transactions_root" "timestamp" = false := by decide
  have k5 : keyMatches "transactions_root" "l1_block" = false := by decide
  have k6 : keyMatches "transactions_root" "transactions_root" = true := by decide
  have k7 : keyMatches "number" "number" = true := by decide
  have k8 : keyMatches "timestamp" "number" = false := by decide
  have k9 : keyMatches "root" "root" = true := by decide
  have henc := Header_jsonMarshal_eq h
  rw [hexText_of_nonneg _ hts] at henc
  refine ⟨_, ⟨h.Timestamp, ⟨h.L1Block.Number, ⟨⟨false, h.L1Block.Timestamp.abs⟩⟩⟩,
    ⟨.mk h.TransactionsRoot.Root.toList⟩⟩, henc, ?_, rfl, rfl, ?_, rfl⟩
  · simp only [Header.jsonUnmarshal, decodeMembers, Header.decodeField, k1, k2, k3, k4, k5,
      k6, k7, k8, k9, unmarshalUint64_val, L1BlockInfo.jsonUnmarshal,
      L1BlockInfo.decodeField, NmtRoot.jsonUnmarshal, NmtRoot.decodeField,
      U256_roundtrip_nonneg, Bytes_decode_encoded, if_true, Bool.false_eq_true, if_false]
  · simp only [BigInt.toInt] at hts ⊢
    by_cases hn : h.L1Block.Timestamp.neg = true
    · rw [if_pos hn] at hts ⊢
      simp only [Bool.false_eq_true, if_false]
      omega
    · rw [if_neg hn]
      simp

/-- C19 at the header `{Timestamp: 2^64-1, L1Block: {Number: 42, Timestamp: 255},
Root: {0, 255, 16}}`, decoded into the zero header. -/
theorem C19_header_json_roundtrip_witness :
    ∃ doc h1, Header.jsonMarshal ⟨18446744073709551615, ⟨42, ⟨⟨false, 255⟩⟩⟩,
          ⟨.mk [0, 255, 16]⟩⟩ = .ok doc ∧
      Header.jsonUnmarshal ⟨0, ⟨0, NewU256⟩, ⟨.nil⟩⟩ doc = .ok h1 ∧
      h1.Timestamp = 18446744073709551615 ∧ h1.L1Block.Number = 42 ∧
      h1.L1Block.Timestamp.toBigInt.toInt = BigInt.toInt ⟨false, 255⟩ ∧
      h1.TransactionsRoot.Root.toList = [0, 255, 16] :=
  C19_header_json_roundtrip ⟨18446744073709551615, ⟨42, ⟨⟨false, 255⟩⟩⟩, ⟨.mk [0, 255, 16]⟩⟩
    ⟨0, ⟨0, NewU256⟩, ⟨.nil⟩⟩ (by decide)

/-! ## Further claims on the commitments -/

theorem CommitTree_Finalize_injective : Function.Injective CommitTree.Finalize := by
  intro a b h
  cases a with
  | mk ta fa =>
    cases b with
    | mk tb fb =>
      simp only [CommitTree.Finalize, CommitTree.node.injEq] at h
      rw [h.1, h.2]

theorem L1BlockInfo_Commit_eq {C : Type} (overflow : Int → Option (Fin (2 ^ 256)))
    (Finalize : RawCommitmentBuilder C → C) (x : L1BlockInfo) :
    L1BlockInfo.Commit overflow Finalize x =
      (encodeUint256 overflow x.Timestamp.toBigInt.toInt).map (fun w =>
        Finalize ⟨"L1BLOCK", [.uint64 "number" x.Number, .uint256 "timestamp" w]⟩) := by
  unfold L1BlockInfo.Commit RawCommitmentBuilder.Uint256Field
  cases encodeUint256 overflow x.Timestamp.toBigInt.toInt <;> rfl

theorem Header_Commit_eq {C : Type} (overflow : Int → Option (Fin (2 ^ 256)))
    (Finalize : RawCommitmentBuilder C → C) (h : Header) :
    Header.Commit overflow Finalize h =
      (h.L1Block.Commit overflow Finalize).map (fun l1 =>
        Finalize ⟨"BLOCK", [.uint64 "timestamp" h.Timestamp,
          .commitment "l1_block" l1,
          .commitment "transactions_root" (h.TransactionsRoot.Commit Finalize)]⟩) := rfl

theorem NmtRoot_Commit_inj {C : Type} (Finalize : RawCommitmentBuilder C → C)
    (hinj : Function.Injective Finalize) (x y : NmtRoot)
    (h : NmtRoot.Commit Finalize x = NmtRoot.Commit Finalize y) :
    x.Root.toList = y.Root.toList := by
  have hb := hinj h
  simpa [NewRawCommitmentBuilder, RawCommitmentBuilder.VarSizeField] using hb

/-- A header whose `L1Block.Timestamp` fits 256 bits has a commitment, whatever the
choice for wider values: the finalised builder with the timestamp itself as field. -/
theorem Header_Commit_fits {C : Type} (overflow : Int → Option (Fin (2 ^ 256)))
    (Finalize : RawCommitmentBuilder C → C) (h : Header)
    (hfit : 0 ≤ h.L1Block.Timestamp.toBigInt.toInt ∧
      h.L1Block.Timestamp.toBigInt.toInt < 2 ^ 256) :
    ∃ w : Fin (2 ^ 256), (w.val : Int) = h.L1Block.Timestamp.toBigInt.toInt ∧
      Header.Commit overflow Finalize h =
        some (Finalize ⟨"BLOCK", [.uint64 "timestamp" h.Timestamp,
          .commitment "l1_block" (Finalize ⟨"L1BLOCK",
            [.uint64 "number" h.L1Block.Number, .uint256 "timestamp" w]⟩),
          .commitment "transactions_root" (h.TransactionsRoot.Commit Finalize)]⟩) := by
  obtain ⟨w, hw, he⟩ := encodeUint256_fits overflow _ hfit
  refine ⟨w, hw, ?_⟩
  rw [Header_Commit_eq, L1BlockInfo_Commit_eq, he]
  rfl

/-- C13, as stated, fails: the headers with `L1Block.Timestamp` 0 and `2^256` differ in
that field, and `CommitTree.Finalize` has no collisions; yet when the builder truncates
a wide value (to its low 256 bits) the two commitments are equal, and when the builder
fails on a wide value the second header has no commitment at all.  Whatever the builder
does with values outside `0 ≤ v < 2^256`, every header with such an `L1Block.Timestamp`
has a companion that differs from it in that field only and does not have a different
commitment. -/
theorem C13_header_commit_wide_timestamp :
    Function.Injective CommitTree.Finalize ∧
      BigInt.toInt ⟨false, 0⟩ ≠ BigInt.toInt ⟨false, 2 ^ 256⟩ ∧
      Header.Commit overflowTruncates CommitTree.Finalize ⟨0, ⟨0, ⟨⟨false, 0⟩⟩⟩, ⟨.nil⟩⟩ =
        Header.Commit overflowTruncates CommitTree.Finalize
          ⟨0, ⟨0, ⟨⟨false, 2 ^ 256⟩⟩⟩, ⟨.nil⟩⟩ ∧
      Header.Commit overflowFails CommitTree.Finalize
        ⟨0, ⟨0, ⟨⟨false, 2 ^ 256⟩⟩⟩, ⟨.nil⟩⟩ = none ∧
      ∀ (overflow : Int → Option (Fin (2 ^ 256))) (h : Header),
        ¬ (0 ≤ h.L1Block.Timestamp.toBigInt.toInt ∧
          h.L1Block.Timestamp.toBigInt.toInt < 2 ^ 256) →
        ∃ t : Nat,
          BigInt.toInt ⟨false, t⟩ ≠ h.L1Block.Timestamp.toBigInt.toInt ∧
          ∀ c1 c2,
            Header.Commit overflow CommitTree.Finalize
              ⟨h.Timestamp, ⟨h.L1Block.Number, ⟨⟨false, t⟩⟩⟩, h.TransactionsRoot⟩ = some c1 →
            Header.Commit overflow CommitTree.Finalize h = some c2 → c1 = c2 := by
  refine ⟨CommitTree_Finalize_injective, by simp [BigInt.toInt], ?_, ?_, ?_⟩
  · rw [Header_Commit_eq, Header_Commit_eq, L1BlockInfo_Commit_eq, L1BlockInfo_Commit_eq]
    have e1 : encodeUint256 overflowTruncates (BigInt.toInt ⟨false, 0⟩) = some 0 := by
      have hfit : 0 ≤ BigInt.toInt ⟨false, 0⟩ ∧ BigInt.toInt ⟨false, 0⟩ < 2 ^ 256 := by
        simp [BigInt.toInt]
      rw [encodeUint256, dif_pos hfit]
      rfl
    have e2 : encodeUint256 overflowTruncates (BigInt.toInt ⟨false, 2 ^ 256⟩) = some 0 := by
      have hfit : ¬ (0 ≤ BigInt.toInt ⟨false, 2 ^ 256⟩ ∧
          BigInt.toInt ⟨false, 2 ^ 256⟩ < 2 ^ 256) := by
        simp [BigInt.toInt]
      rw [encodeUint256, dif_neg hfit]
      simp [overflowTruncates, BigInt.toInt]
    rw [e1, e2]
  · rw [Header_Commit_eq, L1BlockInfo_Commit_eq]
    have hfit : ¬ (0 ≤ BigInt.toInt ⟨false, 2 ^ 256⟩ ∧
        BigInt.toInt ⟨false, 2 ^ 256⟩ < 2 ^ 256) := by
      simp [BigInt.toInt]
    rw [encodeUint256, dif_neg hfit]
    rfl
  · intro overflow h hwide
    have e2 : encodeUint256 overflow h.L1Block.Timestamp.toBigInt.toInt =
        overflow h.L1Block.Timestamp.toBigInt.toInt := dif_neg hwide
    cases hov : overflow h.L1Block.Timestamp.toBigInt.toInt with
    | none =>
      refine ⟨0, ?_, ?_⟩
      · intro heq
        apply hwide
        rw [← heq]
        simp [BigInt.toInt]
      · intro c1 c2 _ h2
        rw [Header_Commit_eq, L1BlockInfo_Commit_eq, e2, hov] at h2
        exact Option.noConfusion h2
    | some w =>
      have hwlt : w.val < 2 ^ 256 := w.isLt
      have hfit : 0 ≤ BigInt.toInt ⟨false, w.val⟩ ∧ BigInt.toInt ⟨false, w.val⟩ < 2 ^ 256 := by
        simp only [BigInt.toInt, Bool.false_eq_true, if_false]
        constructor
        · omega
        · exact_mod_cast hwlt
      have e1 : encodeUint256 overflow (BigInt.toInt ⟨false, w.val⟩) = some w := by
        rw [encodeUint256, dif_pos hfit]
        simp [BigInt.toInt]
      refine ⟨w.val, ?_, ?_⟩
      · intro heq
        apply hwide
        rw [← heq]
        exact hfit
      · intro c1 c2 h1 h2
        rw [Header_Commit_eq, L1BlockInfo_Commit_eq] at h1 h2
        simp only [U256.toBigInt] at h1
        rw [e1] at h1
        rw [e2, hov] at h2
        rw [← Option.some.inj h1, ← Option.some.inj h2]

/-- C13, amended: `Header.Commit` is binding on every leaf field of headers whose
`L1Block.Timestamp` fits 256 bits (`0 ≤ v < 2^256`).  With a `Finalize` free of
collisions (injective on tag and ordered field list) and whatever the builder does with
wider values, two such headers that differ in `Timestamp`, in `L1Block.Number`, in the
integer `L1Block.Timestamp` or in the bytes of `TransactionsRoot.Root` both have a
commitment, and the two commitments differ. -/
theorem C13_header_commit_binding {C : Type} (overflow : Int → Option (Fin (2 ^ 256)))
    (Finalize : RawCommitmentBuilder C → C)
    (hinj : Function.Injective Finalize) (h1 h2 : Header)
    (hfit1 : 0 ≤ h1.L1Block.Timestamp.toBigInt.toInt ∧
      h1.L1Block.Timestamp.toBigInt.toInt < 2 ^ 256)
    (hfit2 : 0 ≤ h2.L1Block.Timestamp.toBigInt.toInt ∧
      h2.L1Block.Timestamp.toBigInt.toInt < 2 ^ 256)
    (hdiff : h1.Timestamp ≠ h2.Timestamp ∨ h1.L1Block.Number ≠ h2.L1Block.Number ∨
      h1.L1Block.Timestamp.toBigInt.toInt ≠ h2.L1Block.Timestamp.toBigInt.toInt ∨
      h1.TransactionsRoot.Root.toList ≠ h2.TransactionsRoot.Root.toList) :
    ∃ c1 c2, Header.Commit overflow Finalize h1 = some c1 ∧
      Header.Commit overflow Finalize h2 = some c2 ∧ c1 ≠ c2 := by
  obtain ⟨w1, hw1, he1⟩ := Header_Commit_fits overflow Finalize h1 hfit1
  obtain ⟨w2, hw2, he2⟩ := Header_Commit_fits overflow Finalize h2 hfit2
  refine ⟨_, _, he1, he2, ?_⟩
  intro heq
  have hb := hinj heq
  simp only [RawCommitmentBuilder.mk.injEq, List.cons.injEq, BuilderField.uint64.injEq,
    BuilderField.commitment.injEq, true_and, and_true] at hb
  obtain ⟨hts, hl1, hroot⟩ := hb
  have hl := hinj hl1
  simp only [RawCommitmentBuilder.mk.injEq, List.cons.injEq, BuilderField.uint64.injEq,
    BuilderField.uint256.injEq, true_and, and_true] at hl
  have hr := NmtRoot_Commit_inj Finalize hinj _ _ hroot
  rcases hdiff with h | h | h | h
  · exact h hts
  · exact h hl.1
  · apply h
    rw [← hw1, ← hw2, hl.2]
  · exact h hr

/-- C13 amended, with the collision-free `CommitTree.Finalize` and the failing choice for
wide values, at two headers that differ only in `L1Block.Number` (42 and 43). -/
theorem C13_header_commit_binding_witness :
    ∃ c1 c2,
      Header.Commit overflowFails CommitTree.Finalize ⟨7, ⟨42, NewU256⟩, ⟨.mk [1]⟩⟩ =
        some c1 ∧
      Header.Commit overflowFails CommitTree.Finalize ⟨7, ⟨43, NewU256⟩, ⟨.mk [1]⟩⟩ =
        some c2 ∧ c1 ≠ c2 :=
  C13_header_commit_binding overflowFails CommitTree.Finalize CommitTree_Finalize_injective
    ⟨7, ⟨42, NewU256⟩, ⟨.mk [1]⟩⟩ ⟨7, ⟨43, NewU256⟩, ⟨.mk [1]⟩⟩
    (by simp [BigInt.toInt, NewU256]) (by simp [BigInt.toInt, NewU256])
    (Or.inr (Or.inl (by decide)))

/-- C16: the three commitments are domain-separated: `Header.Commit`,
`L1BlockInfo.Commit` and `NmtRoot.Commit` finalise builders with the tags "BLOCK",
"L1BLOCK" and "NMTROOT", which are pairwise distinct; so, with a `Finalize` free of
collisions, no `Header` commitment equals an `L1BlockInfo` or `NmtRoot` commitment, and
no `L1BlockInfo` commitment equals an `NmtRoot` commitment. -/
theorem C16_commit_domain_separation {C : Type} (overflow : Int → Option (Fin (2 ^ 256)))
    (Finalize : RawCommitmentBuilder C → C)
    (hinj : Function.Injective Finalize) (h : Header) (x : L1BlockInfo) (r : NmtRoot) :
    (∃ fs : C → List (BuilderField C), Header.Commit overflow Finalize h =
        (h.L1Block.Commit overflow Finalize).map (fun l1 => Finalize ⟨"BLOCK", fs l1⟩)) ∧
      (∃ fs : Fin (2 ^ 256) → List (BuilderField C), L1BlockInfo.Commit overflow Finalize x =
        (encodeUint256 overflow x.Timestamp.toBigInt.toInt).map
          (fun w => Finalize ⟨"L1BLOCK", fs w⟩)) ∧
      (∃ fs, NmtRoot.Commit Finalize r = Finalize ⟨"NMTROOT", fs⟩) ∧
      "BLOCK" ≠ "L1BLOCK" ∧ "BLOCK" ≠ "NMTROOT" ∧ "L1BLOCK" ≠ "NMTROOT" ∧
      (∀ c1 c2, Header.Commit overflow Finalize h = some c1 →
        L1BlockInfo.Commit overflow Finalize x = some c2 → c1 ≠ c2) ∧
      (∀ c1, Header.Commit overflow Finalize h = some c1 →
        c1 ≠ NmtRoot.Commit Finalize r) ∧
      (∀ c2, L1BlockInfo.Commit overflow Finalize x = some c2 →
        c2 ≠ NmtRoot.Commit Finalize r) := by
  have hH : ∀ c1, Header.Commit overflow Finalize h = some c1 →
      ∃ fs, c1 = Finalize ⟨"BLOCK", fs⟩ := by
    intro c1 hc
    rw [Header_Commit_eq] at hc
    cases hl : h.L1Block.Commit overflow Finalize with
    | none => rw [hl] at hc; exact Option.noConfusion hc
    | some l1 =>
      rw [hl] at hc
      exact ⟨_, (Option.some.inj hc).symm⟩
  have hL : ∀ c2, L1BlockInfo.Commit overflow Finalize x = some c2 →
      ∃ fs, c2 = Finalize ⟨"L1BLOCK", fs⟩ := by
    intro c2 hc
    rw [L1BlockInfo_Commit_eq] at hc
    cases he : encodeUint256 overflow x.Timestamp.toBigInt.toInt with
    | none => rw [he] at hc; exact Option.noConfusion hc
    | some w =>
      rw [he] at hc
      exact ⟨_, (Option.some.inj hc).symm⟩
  refine ⟨⟨_, Header_Commit_eq overflow Finalize h⟩, ⟨_, L1BlockInfo_Commit_eq overflow Finalize x⟩,
    ⟨_, rfl⟩, by decide, by decide, by decide, ?_, ?_, ?_⟩
  · intro c1 c2 h1 h2 heq
    obtain ⟨f1, rfl⟩ := hH c1 h1
    obtain ⟨f2, rfl⟩ := hL c2 h2
    have hb : "BLOCK" = "L1BLOCK" := congrArg RawCommitmentBuilder.tag (hinj heq)
    exact absurd hb (by decide)
  · intro c1 h1 heq
    obtain ⟨f1, rfl⟩ := hH c1 h1
    have hb : "BLOCK" = "NMTROOT" := congrArg RawCommitmentBuilder.tag (hinj heq)
    exact absurd hb (by decide)
  · intro c2 h2 heq
    obtain ⟨f2, rfl⟩ := hL c2 h2
    have hb : "L1BLOCK" = "NMTROOT" := congrArg RawCommitmentBuilder.tag (hinj heq)
    exact absurd hb (by decide)

/-- C16 with the collision-free `CommitTree.Finalize` and the failing choice for wide
values, at the zero header, block info and root: all three commitments exist and are
pairwise different. -/
theorem C16_commit_domain_separation_witness :
    ∃ c1 c2,
      Header.Commit overflowFails CommitTree.Finalize ⟨0, ⟨0, NewU256⟩, ⟨.nil⟩⟩ = some c1 ∧
      L1BlockInfo.Commit overflowFails CommitTree.Finalize ⟨0, NewU256⟩ = some c2 ∧
      c1 ≠ c2 ∧ c1 ≠ NmtRoot.Commit CommitTree.Finalize ⟨.nil⟩ ∧
      c2 ≠ NmtRoot.Commit CommitTree.Finalize ⟨.nil⟩ := by
  obtain ⟨w, _, he⟩ := Header_Commit_fits overflowFails CommitTree.Finalize
    ⟨0, ⟨0, NewU256⟩, ⟨.nil⟩⟩ (by simp [BigInt.toInt, NewU256])
  obtain ⟨w2, _, he2⟩ := encodeUint256_fits overflowFails
    (BigInt.toInt (NewU256).toBigInt) (by simp [BigInt.toInt, NewU256])
  have hl : L1BlockInfo.Commit overflowFails CommitTree.Finalize ⟨0, NewU256⟩ =
      some (CommitTree.Finalize ⟨"L1BLOCK",
        [.uint64 "number" 0, .uint256 "timestamp" w2]⟩) := by
    rw [L1BlockInfo_Commit_eq, he2]
    rfl
  have hsep := C16_commit_domain_separation overflowFails CommitTree.Finalize
    CommitTree_Finalize_injective ⟨0, ⟨0, NewU256⟩, ⟨.nil⟩⟩ ⟨0, NewU256⟩ ⟨.nil⟩
  exact ⟨_, _, he, hl, hsep.2.2.2.2.2.2.1 _ _ he hl, hsep.2.2.2.2.2.2.2.1 _ he,
    hsep.2.2.2.2.2.2.2.2 _ hl⟩

/-! ## Claim on the test setup -/

theorem allocLookup_filter_ne (a b : Address) (l : List (Address × GenesisAccount))
    (h : a ≠ b) :
    allocLookup a (l.filter (fun e => decide (e.1 ≠ b))) = allocLookup a l := by
  induction l with
  | nil => rfl
  | cons e rest ih =>
    obtain ⟨k, v⟩ := e
    by_cases hk : k = b
    · have hka : ¬ k = a := fun hka => h (hka.symm.trans hk)
      have hf : decide ((k, v).1 ≠ b) = false := by simp [hk]
      rw [List.filter_cons_of_neg (by simp [hk]), ih]
      simp only [allocLookup, if_neg hka]
    · rw [List.filter_cons_of_pos (by simp [hk])]
      simp only [allocLookup, ih]

theorem get_set_self (m : GenesisAlloc) (a : Address) (v : GenesisAccount) :
    (m.set a v).get a = some v := by
  simp [GenesisAlloc.get, GenesisAlloc.set, allocLookup]

theorem get_set_ne (m : GenesisAlloc) (a b : Address) (v : GenesisAccount) (h : a ≠ b) :
    (m.set b v).get a = m.get a := by
  have hba : ¬ b = a := fun hba => h hba.symm
  simp only [GenesisAlloc.get, GenesisAlloc.set, allocLookup, if_neg hba]
  exact allocLookup_filter_ne a b m.entries h

theorem prefundLoop_get (addrs : List Address) (g : GenesisAlloc) (a : Address) :
    (prefundLoop addrs g).get a =
      if a ∈ addrs then some prefundAccount else g.get a := by
  induction addrs generalizing g with
  | nil => simp [prefundLoop]
  | cons x rest ih =>
    have hstep : prefundLoop (x :: rest) g = prefundLoop rest (g.set x prefundAccount) := rfl
    rw [hstep, ih]
    by_cases hr : a ∈ rest
    · simp [hr]
    · by_cases hx : a = x
      · subst hx
        simp [hr, get_set_self]
      · simp [hr, hx, get_set_ne _ _ _ _ hx]

theorem foldl_set_not_mem (l : List (Address × GenesisAccount)) (g : GenesisAlloc)
    (a : Address) (h : a ∉ l.map Prod.fst) :
    (l.foldl (fun m e => m.set e.1 e.2) g).get a = g.get a := by
  induction l generalizing g with
  | nil => rfl
  | cons e rest ih =>
    simp only [List.map_cons, List.mem_cons, not_or] at h
    simp only [List.foldl_cons]
    rw [ih _ h.2, get_set_ne _ _ _ _ h.1]

theorem foldl_set_mem (l : List (Address × GenesisAccount)) (g : GenesisAlloc)
    (a : Address) (v : GenesisAccount) (hnd : (l.map Prod.fst).Nodup) (h : (a, v) ∈ l) :
    (l.foldl (fun m e => m.set e.1 e.2) g).get a = some v := by
  induction l generalizing g with
  | nil => simp at h
  | cons e rest ih =>
    simp only [List.map_cons, List.nodup_cons] at hnd
    simp only [List.foldl_cons]
    rcases List.mem_cons.mp h with he | hr
    · subst he
      rw [foldl_set_not_mem rest _ a hnd.1, get_set_self]
    · exact ih _ hnd.2 hr

theorem allocLookup_some_mem (a : Address) (v : GenesisAccount)
    (l : List (Address × GenesisAccount)) (h : allocLookup a l = some v) : (a, v) ∈ l := by
  induction l with
  | nil => simp [allocLookup] at h
  | cons e rest ih =>
    obtain ⟨k, w⟩ := e
    simp only [allocLookup] at h
    split_ifs at h with hk
    · simp only [Option.some.injEq] at h
      rw [hk, h]
      exact List.mem_cons_self _ _
    · exact List.mem_cons_of_mem _ (ih h)

theorem allocLookup_none_not_mem (a : Address) (l : List (Address × GenesisAccount))
    (h : allocLookup a l = none) : a ∉ l.map Prod.fst := by
  induction l with
  | nil => simp
  | cons e rest ih =>
    obtain ⟨k, w⟩ := e
    simp only [allocLookup] at h
    split_ifs at h with hk
    simp only [List.map_cons, List.mem_cons, not_or]
    exact ⟨fun hak => hk hak.symm, ih h⟩

/-- The caller's loop: an address of the caller's map gets the caller's entry, any other
address keeps what the map held before the loop. -/
theorem overrideLoop_get (alloc g : GenesisAlloc) (hwf : alloc.WF) (a : Address) :
    (overrideLoop alloc g).get a =
      match alloc.get a with
      | some v => some v
      | none => g.get a := by
  cases hg : alloc.get a with
  | some v =>
    exact foldl_set_mem alloc.entries g a v hwf (allocLookup_some_mem a v alloc.entries hg)
  | none => exact foldl_set_not_mem alloc.entries g a (allocLookup_none_not_mem a _ hg)

/-- C15: in `Setup` the caller's allocations have priority.  Whenever `Setup` returns,
for every address `a` of `alloc.L1Alloc` the returned L1 genesis has
`Alloc[a] = alloc.L1Alloc[a]`, and for every address of `alloc.L2Alloc` the returned L2
genesis has `Alloc[a] = alloc.L2Alloc[a]`, also for a prefunded test address and for an
address of the generated genesis; every other address keeps the prefunded entry if
`PrefundTestUsers` is set and it is a test address, else its entry of the generated
genesis (`l1Built`, `l2Built`: what the two builders returned). -/
theorem C15_setup_alloc_priority {DC G BL RC LD : Type} (deps : SetupDeps DC G BL RC LD)
    (dp : DeployParams DC) (alloc : AllocParams) (data : SetupData G RC LD)
    (hwf1 : alloc.L1Alloc.WF) (hwf2 : alloc.L2Alloc.WF)
    (hret : Setup deps dp alloc = some data) :
    ∃ l1Built l2Built,
      deps.BuildL1DeveloperGenesis (deps.copyWithTimestamp dp.DeployConfig deps.now)
          deps.l1Deployments = some l1Built ∧
      deps.BuildL2Genesis (deps.copyWithTimestamp dp.DeployConfig deps.now)
          (deps.ToBlock data.L1Cfg) = some l2Built ∧
      (∀ a v, alloc.L1Alloc.get a = some v → data.L1Cfg.Alloc.get a = some v) ∧
      (∀ a, alloc.L1Alloc.get a = none → data.L1Cfg.Alloc.get a =
        if alloc.PrefundTestUsers = true ∧ a ∈ dp.AddressesAll then some prefundAccount
        else l1Built.Alloc.get a) ∧
      (∀ a v, alloc.L2Alloc.get a = some v → data.L2Cfg.Alloc.get a = some v) ∧
      (∀ a, alloc.L2Alloc.get a = none → data.L2Cfg.Alloc.get a =
        if alloc.PrefundTestUsers = true ∧ a ∈ dp.AddressesAll then some prefundAccount
        else l2Built.Alloc.get a) := by
  unfold Setup at hret
  simp only at hret
  by_cases hc1 : (!deps.deployConfCheck (deps.copyWithTimestamp dp.DeployConfig deps.now)) = true
  · rw [if_pos hc1] at hret
    exact Option.noConfusion hret
  rw [if_neg hc1] at hret
  by_cases hc2 : (!deps.l1DeploymentsCheck deps.l1Deployments) = true
  · rw [if_pos hc2] at hret
    exact Option.noConfusion hret
  rw [if_neg hc2] at hret
  cases hb1 : deps.BuildL1DeveloperGenesis (deps.copyWithTimestamp dp.DeployConfig deps.now)
      deps.l1Deployments with
  | none =>
    rw [hb1] at hret
    exact Option.noConfusion hret
  | some l1Built =>
    rw [hb1] at hret
    simp only at hret
    generalize hb2 : deps.BuildL2Genesis _ _ = r2 at hret
    cases r2 with
    | none => exact Option.noConfusion hret
    | some l2Built =>
      simp only at hret
      split_ifs at hret with hc3 hc4
      simp only [Option.some.injEq] at hret
      subst hret
      have hpre : ∀ (g : GenesisAlloc) (a : Address),
          (prefundIf alloc.PrefundTestUsers dp.AddressesAll g).get a =
            if alloc.PrefundTestUsers = true ∧ a ∈ dp.AddressesAll then some prefundAccount
            else g.get a := by
        intro g a
        unfold prefundIf
        cases hp : alloc.PrefundTestUsers with
        | true => simp [prefundLoop_get]
        | false => simp
      refine ⟨l1Built, l2Built, rfl, hb2, ?_, ?_, ?_, ?_⟩
      · intro a v hg
        simp only [overrideLoop_get _ _ hwf1, hg]
      · intro a hg
        simp only [overrideLoop_get _ _ hwf1, hg, hpre]
      · intro a v hg
        simp only [overrideLoop_get _ _ hwf2, hg]
      · intro a hg
        simp only [overrideLoop_get _ _ hwf2, hg, hpre]

/-- C15 on a run of `Setup`: address 1 is a prefunded test address and is in the
generated L1 genesis with balance 5, the caller allots it balance 7 on L1 and allots
address 3 balance 9 on L2; the returned genesis maps hold the caller's entries. -/
theorem C15_setup_alloc_priority_witness :
    ∃ data,
      Setup (unitSetupDeps ⟨[(1, ⟨[], [], some 5, 0, []⟩)]⟩ ⟨[]⟩) ⟨(), [1, 2]⟩
          ⟨⟨[(1, ⟨[], [], some 7, 0, []⟩)]⟩, ⟨[(3, ⟨[], [], some 9, 0, []⟩)]⟩, true⟩ =
        some data ∧
      data.L1Cfg.Alloc.get 1 = some ⟨[], [], some 7, 0, []⟩ ∧
      data.L2Cfg.Alloc.get 3 = some ⟨[], [], some 9, 0, []⟩ := by
  refine ⟨_, rfl, ?_, ?_⟩
  · obtain ⟨_, _, _, _, hA, _, _, _⟩ :=
      C15_setup_alloc_priority (unitSetupDeps ⟨[(1, ⟨[], [], some 5, 0, []⟩)]⟩ ⟨[]⟩)
        ⟨(), [1, 2]⟩
        ⟨⟨[(1, ⟨[], [], some 7, 0, []⟩)]⟩, ⟨[(3, ⟨[], [], some 9, 0, []⟩)]⟩, true⟩ _
        (by unfold GenesisAlloc.WF; decide) (by unfold GenesisAlloc.WF; decide) rfl
    exact hA 1 _ rfl
  · obtain ⟨_, _, _, _, _, _, hC, _⟩ :=
      C15_setup_alloc_priority (unitSetupDeps ⟨[(1, ⟨[], [], some 5, 0, []⟩)]⟩ ⟨[]⟩)
        ⟨(), [1, 2]⟩
        ⟨⟨[(1, ⟨[], [], some 7, 0, []⟩)]⟩, ⟨[(3, ⟨[], [], some 9, 0, []⟩)]⟩, true⟩ _
        (by unfold GenesisAlloc.WF; decide) (by unfold GenesisAlloc.WF; decide) rfl
    exact hC 3 _ rfl

end Espresso
